import Mathlib

/-!
Verification development for the scraper repository.

Each Python routine that a claim refers to is shallowly embedded below as an
executable Lean definition, translated from the source file indicated in its
doc comment.  External effects (network responses, gzip, string decoding,
`urlparse`) appear as explicit parameters or oracles, so every definition
stays a pure function of its inputs.
-/

namespace Scraper

/-! ## Chunk planners (`src/cymax/generate_chunks.py`, `src/fpfc/generate_chunks.py`) -/

/-- Step enumeration mirroring Python `range(start, stop, step)` for `step > 0`:
the fuel argument bounds the number of iterations (`stop - start` suffices
whenever `step ≥ 1`). -/
def rangeStepGo (stop step : Nat) : Nat → Nat → List Nat
  | _, 0 => []
  | a, fuel + 1 => if a < stop then a :: rangeStepGo stop step (a + step) fuel else []

/-- Python `range(start, stop, step)` with `step > 0`. -/
def pyRangeStep (start stop step : Nat) : List Nat :=
  rangeStepGo stop step start (stop - start)

/-- A planned chunk: the contiguous slice `[offset, offset + limit)` of the
discovered product-URL list assigned to one CI job. -/
structure Chunk where
  offset : Nat
  limit : Nat
deriving DecidableEq, Repr

/-- `main` of `src/cymax/generate_chunks.py` (lines 237-250):
`for i, offset in enumerate(range(0, total, CHUNK_SIZE)):
   limit = min(CHUNK_SIZE, total - offset)`. -/
def cymaxChunks (chunkSize total : Nat) : List Chunk :=
  (pyRangeStep 0 total chunkSize).map (fun off => ⟨off, min chunkSize (total - off)⟩)

/-- Chunk generation of `src/fpfc/generate_chunks.py` (lines 114-134) for one
sitemap's URL total:
`num_chunks = (total + URLS_PER_JOB - 1) // URLS_PER_JOB;
 offset = i * URLS_PER_JOB; limit = min(URLS_PER_JOB, total - offset)`. -/
def fpfcChunks (urlsPerJob total : Nat) : List Chunk :=
  (List.range ((total + urlsPerJob - 1) / urlsPerJob)).map
    (fun i => ⟨i * urlsPerJob, min urlsPerJob (total - i * urlsPerJob)⟩)

theorem rangeStepGo_eq (b s : Nat) (hs : 0 < s) :
    ∀ fuel a, b - a ≤ fuel →
      rangeStepGo b s a fuel
        = (List.range (((b - a) + s - 1) / s)).map (fun i => a + i * s) := by
  intro fuel
  induction fuel with
  | zero =>
    intro a ha
    have hba : b - a = 0 := by omega
    have : ((b - a) + s - 1) / s = 0 := by
      rw [hba]; exact Nat.div_eq_of_lt (by omega)
    simp [rangeStepGo, this]
  | succ f ih =>
    intro a ha
    by_cases hab : a < b
    · have hrec : b - (a + s) ≤ f := by omega
      have hstep : ((b - a) + s - 1) / s = ((b - (a + s)) + s - 1) / s + 1 := by
        have hd1 : (b - a) + s - 1 = ((b - a) - 1) + s := by omega
        rw [hd1, Nat.add_div_right _ hs]
        by_cases hds : b - a ≤ s
        · have h0 : b - (a + s) = 0 := by omega
          have hlt : (b - a) - 1 < s := by omega
          rw [h0, Nat.div_eq_of_lt hlt]
          have : 0 + s - 1 = s - 1 := by omega
          rw [this, Nat.div_eq_of_lt (by omega)]
        · have h1 : (b - (a + s)) + s - 1 = ((b - (a + s)) - 1) + s := by omega
          rw [h1, Nat.add_div_right _ hs]
          have h2 : (b - a) - 1 = ((b - (a + s)) - 1) + s := by omega
          rw [h2, Nat.add_div_right _ hs]
      rw [rangeStepGo, if_pos hab, ih (a + s) hrec, hstep, List.range_succ_eq_map]
      simp only [List.map_cons, List.map_map]
      congr 1
      · omega
      · apply List.map_congr_left
        intro i _
        simp only [Function.comp_apply, Nat.succ_eq_add_one]
        ring
    · have hba : b - a = 0 := by omega
      have : ((b - a) + s - 1) / s = 0 := by
        rw [hba]; exact Nat.div_eq_of_lt (by omega)
      simp [rangeStepGo, if_neg hab, this]

theorem pyRangeStep_eq (n cs : Nat) (hcs : 0 < cs) :
    pyRangeStep 0 n cs = (List.range ((n + cs - 1) / cs)).map (fun i => i * cs) := by
  have h := rangeStepGo_eq n cs hcs (n - 0) 0 (by omega)
  rw [pyRangeStep, h]
  simp only [Nat.sub_zero]
  apply List.map_congr_left
  intro i _
  omega

theorem cymaxChunks_eq_fpfcChunks (cs n : Nat) (hcs : 0 < cs) :
    cymaxChunks cs n = fpfcChunks cs n := by
  rw [cymaxChunks, fpfcChunks, pyRangeStep_eq n cs hcs, List.map_map]
  apply List.map_congr_left
  intro i _
  rfl

/-- Ceiling division bounds for the chunk count `K = ⌈n / cs⌉`. -/
theorem chunkCount_bounds (cs n : Nat) (hcs : 0 < cs) (hn : 0 < n) :
    0 < (n + cs - 1) / cs ∧ n ≤ ((n + cs - 1) / cs) * cs ∧
      (((n + cs - 1) / cs) - 1) * cs < n := by
  set K := (n + cs - 1) / cs with hK
  have hKpos : 0 < K := by
    have : 1 * cs ≤ n + cs - 1 := by omega
    have := (Nat.le_div_iff_mul_le hcs).mpr this
    omega
  have hK1 : n ≤ K * cs := by
    by_contra hcon
    push_neg at hcon
    have h2 : (K + 1) * cs ≤ n + cs - 1 := by
      have hsm : (K + 1) * cs = K * cs + cs := by ring
      omega
    have := (Nat.le_div_iff_mul_le hcs).mpr h2
    omega
  have hK2 : (K - 1) * cs < n := by
    by_contra hcon
    push_neg at hcon
    have h4 : n + cs - 1 ≤ cs * (K - 1) + (cs - 1) := by
      have := Nat.mul_comm (K - 1) cs
      omega
    have h5 : K ≤ (cs * (K - 1) + (cs - 1)) / cs := Nat.div_le_div_right h4
    rw [Nat.mul_add_div hcs, Nat.div_eq_of_lt (by omega)] at h5
    omega
  exact ⟨hKpos, hK1, hK2⟩

/-- The limits of all full chunks (`i * cs < n` for every index) sum to `K * cs`. -/
theorem chunk_limits_full_sum (cs n : Nat) :
    ∀ K, K * cs < n →
      ((List.range K).map (fun i => min cs (n - i * cs))).sum = K * cs := by
  intro K
  induction K with
  | zero => simp
  | succ k ih =>
    intro h
    have hsm : (k + 1) * cs = k * cs + cs := by ring
    have hk : k * cs < n := by omega
    rw [List.range_succ, List.map_append, List.sum_append, ih hk]
    have hterm : min cs (n - k * cs) = cs := by omega
    simp only [List.map_cons, List.map_nil, List.sum_cons, List.sum_nil, hterm]
    omega

/--
C1: for every positive chunk size `cs` and discovered-URL total `n > 0`, the
Cymax and FurniturePick chunk planners agree and partition `0 .. n-1` into
contiguous non-overlapping chunks: the i-th chunk has offset `i * cs` and
limit `min(cs, n - offset)`, every limit lies in `[1, cs]`, the limits sum to
`n`, and consecutive chunks are adjacent.
-/
theorem chunk_planner_partitions (cs n : Nat) (hcs : 0 < cs) (hn : 0 < n) :
    cymaxChunks cs n = fpfcChunks cs n ∧
    (fpfcChunks cs n).length = (n + cs - 1) / cs ∧
    (∀ i (h : i < (fpfcChunks cs n).length),
      ((fpfcChunks cs n).get ⟨i, h⟩).offset = i * cs ∧
      ((fpfcChunks cs n).get ⟨i, h⟩).limit = min cs (n - i * cs) ∧
      1 ≤ ((fpfcChunks cs n).get ⟨i, h⟩).limit ∧
      ((fpfcChunks cs n).get ⟨i, h⟩).limit ≤ cs) ∧
    ((fpfcChunks cs n).map Chunk.limit).sum = n ∧
    (∀ i (h : i + 1 < (fpfcChunks cs n).length),
      ((fpfcChunks cs n).get ⟨i + 1, h⟩).offset =
        ((fpfcChunks cs n).get ⟨i, by omega⟩).offset
          + ((fpfcChunks cs n).get ⟨i, by omega⟩).limit) := by
  have heq := cymaxChunks_eq_fpfcChunks cs n hcs
  obtain ⟨hKpos, hK1, hK2⟩ := chunkCount_bounds cs n hcs hn
  set K := (n + cs - 1) / cs with hK
  have hlen : (fpfcChunks cs n).length = K := by
    rw [fpfcChunks, List.length_map, List.length_range]
  have hget : ∀ i (h : i < (fpfcChunks cs n).length),
      (fpfcChunks cs n).get ⟨i, h⟩
        = ⟨i * cs, min cs (n - i * cs)⟩ := by
    intro i h
    simp [fpfcChunks, List.get_eq_getElem]
  have hbridge : (K - 1) * cs + cs = K * cs := by
    have h1 : K - 1 + 1 = K := by omega
    calc (K - 1) * cs + cs = (K - 1 + 1) * cs := by ring
    _ = K * cs := by rw [h1]
  refine ⟨heq, hlen, ?_, ?_, ?_⟩
  · intro i h
    have hi : i < K := by omega
    have hmul : i * cs ≤ (K - 1) * cs := Nat.mul_le_mul_right cs (by omega)
    rw [hget i h]
    refine ⟨rfl, rfl, by simp only; omega, by simp only; omega⟩
  · have hmap : (fpfcChunks cs n).map Chunk.limit
        = (List.range K).map (fun i => min cs (n - i * cs)) := by
      rw [fpfcChunks, List.map_map]
      rfl
    rw [hmap]
    have hKsplit : K = (K - 1) + 1 := by omega
    rw [hKsplit, List.range_succ, List.map_append, List.sum_append,
      chunk_limits_full_sum cs n (K - 1) (by omega)]
    have hlast : min cs (n - (K - 1) * cs) = n - (K - 1) * cs := by omega
    simp only [List.map_cons, List.map_nil, List.sum_cons, List.sum_nil, hlast]
    omega
  · intro i h
    have hi1 : i + 1 < K := by omega
    rw [hget (i + 1) h, hget i (by omega)]
    have hmul : (i + 1) * cs ≤ (K - 1) * cs := Nat.mul_le_mul_right cs (by omega)
    have hsucc : (i + 1) * cs = i * cs + cs := by ring
    simp only
    omega

/-- Concrete instantiation of `chunk_planner_partitions` at chunk size 2 and
total 5. -/
theorem chunk_planner_partitions_witness :
    0 < 2 ∧ 0 < 5 ∧ ((fpfcChunks 2 5).map Chunk.limit).sum = 5 :=
  ⟨by decide, by decide, (chunk_planner_partitions 2 5 (by decide) (by decide)).2.2.2.1⟩

/-! ## Per-URL fetch with bounded retries
(`WalmartScraper.http_get`, `BisonofficeScraper.http_get`,
`LuxeDecorScraper.http_get`) -/

/-- Outcome of one `session.get` call inside the retry loop: either an
exception (timeout, connection error, ...) or a response with an HTTP status
code and a body (`r.text`). -/
inductive HttpOutcome where
  | err
  | resp (status : Nat) (body : String)

/-- `if r.status_code == 200: return r.text` — the body kept from one attempt. -/
def body200 : HttpOutcome → Option String
  | .resp 200 b => some b
  | _ => none

/-- The retry loop of `http_get`: try attempt indices `i, i+1, ...` while fuel
remains, returning the first 200-status body together with the number of GET
attempts actually issued.  Non-200 statuses and exceptions only sleep and
continue. -/
def httpGetFrom (attempt : Nat → HttpOutcome) : Nat → Nat → Option String × Nat
  | _, 0 => (none, 0)
  | i, k + 1 =>
    match body200 (attempt i) with
    | some b => (some b, 1)
    | none =>
      let r := httpGetFrom attempt (i + 1) k
      (r.1, r.2 + 1)

/-- `WalmartScraper.http_get` (src/walmart/walmart.py lines 101-139):
`for attempt in range(3)`. -/
def walmartHttpGet (attempt : Nat → HttpOutcome) : Option String × Nat :=
  httpGetFrom attempt 0 3

/-- `BisonofficeScraper.http_get` (src/bisonoffice/bisonoffice.py lines
140-179): `for attempt in range(3)`. -/
def bisonofficeHttpGet (attempt : Nat → HttpOutcome) : Option String × Nat :=
  httpGetFrom attempt 0 3

/-- `LuxeDecorScraper.http_get` (src/luxedecor/luxedecor.py lines 90-127):
`for attempt in range(5)`. -/
def luxedecorHttpGet (attempt : Nat → HttpOutcome) : Option String × Nat :=
  httpGetFrom attempt 0 5

theorem httpGetFrom_spec (attempt : Nat → HttpOutcome) :
    ∀ n i,
      (httpGetFrom attempt i n).2 ≤ n ∧
      ((httpGetFrom attempt i n).1 = none ↔
        ∀ k, k < n → body200 (attempt (i + k)) = none) ∧
      (∀ b, (httpGetFrom attempt i n).1 = some b ↔
        ∃ k, k < n ∧ body200 (attempt (i + k)) = some b ∧
          ∀ j, j < k → body200 (attempt (i + j)) = none) := by
  intro n
  induction n with
  | zero =>
    intro i
    refine ⟨by simp [httpGetFrom], by simp [httpGetFrom], ?_⟩
    intro b
    simp [httpGetFrom]
  | succ m ih =>
    intro i
    obtain ⟨ihc, ihn, ihs⟩ := ih (i + 1)
    cases hb : body200 (attempt i) with
    | some b0 =>
      refine ⟨?_, ?_, ?_⟩
      · simp [httpGetFrom, hb]
      · simp only [httpGetFrom, hb]
        constructor
        · intro h; exact absurd h (by simp)
        · intro h
          have := h 0 (by omega)
          rw [Nat.add_zero] at this
          rw [this] at hb
          exact absurd hb (by simp)
      · intro b
        simp only [httpGetFrom, hb]
        constructor
        · intro h
          refine ⟨0, by omega, ?_, by omega⟩
          rw [Nat.add_zero, hb]
          exact h
        · rintro ⟨k, hk, hbk, hprev⟩
          cases k with
          | zero =>
            rw [Nat.add_zero] at hbk
            rw [hbk] at hb
            exact congrArg some (Option.some.inj hb.symm)
          | succ k' =>
            have := hprev 0 (by omega)
            rw [Nat.add_zero] at this
            rw [this] at hb
            exact absurd hb (by simp)
    | none =>
      have hshift : ∀ k : Nat, i + 1 + k = i + (k + 1) := by omega
      refine ⟨?_, ?_, ?_⟩
      · simp only [httpGetFrom, hb]
        omega
      · simp only [httpGetFrom, hb]
        rw [ihn]
        constructor
        · intro h k hk
          cases k with
          | zero => rw [Nat.add_zero]; exact hb
          | succ k' =>
            have h1 := h k' (by omega)
            rw [hshift k'] at h1
            exact h1
        · intro h k hk
          have h1 := h (k + 1) (by omega)
          rw [← hshift k] at h1
          exact h1
      · intro b
        simp only [httpGetFrom, hb]
        rw [ihs b]
        constructor
        · rintro ⟨k, hk, hbk, hprev⟩
          rw [hshift k] at hbk
          refine ⟨k + 1, by omega, hbk, ?_⟩
          intro j hj
          cases j with
          | zero => rw [Nat.add_zero]; exact hb
          | succ j' =>
            have h1 := hprev j' (by omega)
            rw [hshift j'] at h1
            exact h1
        · rintro ⟨k, hk, hbk, hprev⟩
          cases k with
          | zero =>
            rw [Nat.add_zero] at hbk
            rw [hbk] at hb
            exact absurd hb (by simp)
          | succ k' =>
            rw [← hshift k'] at hbk
            refine ⟨k', by omega, hbk, ?_⟩
            intro j hj
            have h1 := hprev (j + 1) (by omega)
            rw [← hshift j] at h1
            exact h1

/--
C2: each scraper's `http_get` issues at most its fixed number of GET attempts
(3 for Walmart and BisonOffice, 5 for LuxeDecor), returns the body of the
first attempt whose status is 200, and returns `None` when no attempt within
the bound has status 200.
-/
theorem http_get_retry_bound (attempt : Nat → HttpOutcome) :
    (walmartHttpGet attempt).2 ≤ 3 ∧
    (bisonofficeHttpGet attempt).2 ≤ 3 ∧
    (luxedecorHttpGet attempt).2 ≤ 5 ∧
    bisonofficeHttpGet attempt = walmartHttpGet attempt ∧
    (∀ b, (walmartHttpGet attempt).1 = some b ↔
      ∃ k, k < 3 ∧ body200 (attempt k) = some b ∧
        ∀ j, j < k → body200 (attempt j) = none) ∧
    ((walmartHttpGet attempt).1 = none ↔ ∀ k, k < 3 → body200 (attempt k) = none) ∧
    (∀ b, (luxedecorHttpGet attempt).1 = some b ↔
      ∃ k, k < 5 ∧ body200 (attempt k) = some b ∧
        ∀ j, j < k → body200 (attempt j) = none) ∧
    ((luxedecorHttpGet attempt).1 = none ↔ ∀ k, k < 5 → body200 (attempt k) = none) := by
  obtain ⟨h3c, h3n, h3s⟩ := httpGetFrom_spec attempt 3 0
  obtain ⟨h5c, h5n, h5s⟩ := httpGetFrom_spec attempt 5 0
  simp only [Nat.zero_add] at h3n h3s h5n h5s
  exact ⟨h3c, h3c, h5c, rfl, h3s, h3n, h5s, h5n⟩

/-! ## LuxeDecor exponential backoff (`LuxeDecorScraper.handle_rate_limit`) -/

/-- Events that touch `current_delay` in `src/luxedecor/luxedecor.py`:
a 429 response calls `handle_rate_limit` (doubling, capped), a 200 response in
`http_get` resets the delay, and every other failure sleeps `current_delay`
without changing it.  Delays are the floats 2.0 .. 60.0; under doubling and
`min` they take exactly the integer values modelled here. -/
inductive LuxeEvent where
  | rateLimited
  | success
  | failOther

/-- `self.initial_delay = 2.0` (line 36). -/
def luxeInitialDelay : Nat := 2

/-- `self.max_delay = 60.0` (line 37). -/
def luxeMaxDelay : Nat := 60

/-- One transition of `current_delay`:
`handle_rate_limit` does `self.current_delay = min(self.current_delay * 2,
self.max_delay)` (line 86); a 200 response does
`self.current_delay = self.initial_delay` (line 106). -/
def luxeStep (d : Nat) : LuxeEvent → Nat
  | .rateLimited => min (d * 2) luxeMaxDelay
  | .success => luxeInitialDelay
  | .failOther => d

/-- `current_delay` after a sequence of events, starting from a fresh scraper
(`self.current_delay = self.initial_delay`, line 38). -/
def luxeDelayAfter (evs : List LuxeEvent) : Nat :=
  evs.foldl luxeStep luxeInitialDelay

theorem luxeDelay_inv (evs : List LuxeEvent) :
    ∀ d, luxeInitialDelay ≤ d → d ≤ luxeMaxDelay →
      luxeInitialDelay ≤ evs.foldl luxeStep d ∧ evs.foldl luxeStep d ≤ luxeMaxDelay := by
  induction evs with
  | nil => intro d h1 h2; exact ⟨h1, h2⟩
  | cons e rest ih =>
    intro d h1 h2
    rw [List.foldl_cons]
    apply ih
    · cases e <;> simp only [luxeStep, luxeInitialDelay, luxeMaxDelay] at * <;> omega
    · cases e <;> simp only [luxeStep, luxeInitialDelay, luxeMaxDelay] at * <;> omega

theorem luxeDelay_replicate :
    ∀ (k : Nat) (d : Nat), d ≤ luxeMaxDelay →
      (List.replicate k LuxeEvent.rateLimited).foldl luxeStep d
        = min (2 ^ k * d) luxeMaxDelay := by
  intro k
  induction k with
  | zero =>
    intro d hd
    simp [luxeMaxDelay] at *
    omega
  | succ m ih =>
    intro d hd
    rw [List.replicate_succ, List.foldl_cons]
    have hstep : luxeStep d .rateLimited = min (d * 2) luxeMaxDelay := rfl
    rw [hstep, ih _ (Nat.min_le_right _ _)]
    rcases Nat.le_total (d * 2) luxeMaxDelay with h | h
    · rw [Nat.min_eq_left h]
      have : 2 ^ m * (d * 2) = 2 ^ (m + 1) * d := by ring
      rw [this]
    · rw [Nat.min_eq_right h]
      have h1 : (1 : Nat) ≤ 2 ^ m := Nat.one_le_two_pow
      have h2 : luxeMaxDelay ≤ 2 ^ m * luxeMaxDelay := by
        calc luxeMaxDelay = 1 * luxeMaxDelay := by omega
        _ ≤ 2 ^ m * luxeMaxDelay := Nat.mul_le_mul_right _ h1
      have h3 : luxeMaxDelay ≤ 2 ^ (m + 1) * d := by
        calc luxeMaxDelay ≤ d * 2 := h
        _ = 2 ^ 1 * d := by ring
        _ ≤ 2 ^ (m + 1) * d := Nat.mul_le_mul_right _ (Nat.pow_le_pow_right (by omega) (by omega))
      rw [Nat.min_eq_right h2, Nat.min_eq_right h3]

/--
C6: the LuxeDecor backoff delay always stays within
`[initial_delay, max_delay] = [2, 60]`: it starts at `initial_delay`, each
rate-limit event replaces it by `min(2 * delay, max_delay)`, each successful
`http_get` resets it, and after `k` consecutive rate limits from a fresh
state it equals `min(2^k * initial_delay, max_delay)`.
-/
theorem luxe_backoff_bounds :
    (∀ evs : List LuxeEvent,
      luxeInitialDelay ≤ luxeDelayAfter evs ∧ luxeDelayAfter evs ≤ luxeMaxDelay) ∧
    (∀ d, luxeStep d .rateLimited = min (2 * d) luxeMaxDelay) ∧
    (∀ d, luxeStep d .success = luxeInitialDelay) ∧
    (∀ k, luxeDelayAfter (List.replicate k .rateLimited)
      = min (2 ^ k * luxeInitialDelay) luxeMaxDelay) := by
  refine ⟨?_, ?_, ?_, ?_⟩
  · intro evs
    exact luxeDelay_inv evs luxeInitialDelay (by omega) (by simp [luxeInitialDelay, luxeMaxDelay])
  · intro d
    simp [luxeStep]
    omega
  · intro d
    rfl
  · intro k
    exact luxeDelay_replicate k luxeInitialDelay (by simp [luxeInitialDelay, luxeMaxDelay])

/-! ## Sitemap slice selection (`run` of walmart / bisonoffice / luxedecor) -/

/-- How `run` terminates before any scraping work:
`sys.exit(1)` when no sitemaps were discovered, `sys.exit(0)` (Walmart,
BisonOffice) or a plain `return` (LuxeDecor) when the offset is past the end,
otherwise it proceeds on the selected slice. -/
inductive RunOutcome where
  | exitFailure
  | exitSuccess
  | proceed (sitemaps : List String)
deriving DecidableEq

/-- Python slice `l[o:e]` for a non-negative start `o`. -/
def pySlice (l : List String) (o e : Nat) : List String :=
  (l.take e).drop o

/-- The slice-selection logic shared verbatim by `WalmartScraper.run`
(lines 444-453), `BisonofficeScraper.run` (lines 870-882) and
`LuxeDecorScraper.run` (lines 521-532):
`end = offset + max_sitemaps if max_sitemaps > 0 else len(sitemaps)`
followed by `sitemaps[offset:end]`. -/
def selectSitemaps (sitemapOffset : Nat) (maxSitemaps : Int) (l : List String) :
    RunOutcome :=
  if l.isEmpty then .exitFailure
  else if l.length ≤ sitemapOffset then .exitSuccess
  else
    let endIdx : Nat :=
      if 0 < maxSitemaps then sitemapOffset + maxSitemaps.toNat else l.length
    .proceed (pySlice l sitemapOffset endIdx)

/--
C5: for every non-empty discovered sitemap list, the scraper processes
exactly the contiguous slice from `SITEMAP_OFFSET` up to
`SITEMAP_OFFSET + MAX_SITEMAPS` (to the end of the list when
`MAX_SITEMAPS ≤ 0`); when `SITEMAP_OFFSET ≥ length` it processes nothing and
exits cleanly.
-/
theorem sitemap_slice_spec (off : Nat) (maxS : Int) (l : List String)
    (hne : l ≠ []) :
    (l.length ≤ off → selectSitemaps off maxS l = .exitSuccess) ∧
    (off < l.length →
      ∃ s, selectSitemaps off maxS l = .proceed s ∧
        s.length = (if 0 < maxS then min maxS.toNat (l.length - off)
                    else l.length - off) ∧
        ∀ i (h : i < s.length),
          ∃ (hli : off + i < l.length), s.get ⟨i, h⟩ = l.get ⟨off + i, hli⟩) := by
  have hnem : l.isEmpty = false := by
    cases l with
    | nil => exact absurd rfl hne
    | cons a t => rfl
  constructor
  · intro hoff
    rw [selectSitemaps, hnem]
    simp only [Bool.false_eq_true, if_false, if_pos hoff]
  · intro hoff
    rw [selectSitemaps, hnem]
    simp only [Bool.false_eq_true, if_false]
    rw [if_neg (show ¬ l.length ≤ off by omega)]
    refine ⟨_, rfl, ?_, ?_⟩
    · simp only [pySlice, List.length_drop, List.length_take]
      by_cases hm : 0 < maxS
      · rw [if_pos hm, if_pos hm]
        omega
      · rw [if_neg hm, if_neg hm]
        omega
    · intro i h
      simp only [pySlice, List.length_drop, List.length_take] at h
      have hlt : off + i < l.length := by
        by_cases hm : 0 < maxS
        · rw [if_pos hm] at h; omega
        · rw [if_neg hm] at h; omega
      refine ⟨hlt, ?_⟩
      simp only [pySlice, List.get_eq_getElem, List.getElem_drop, List.getElem_take]

/-- Concrete instantiation of `sitemap_slice_spec` on a four-element list with
offset 1 and limit 2. -/
theorem sitemap_slice_spec_witness :
    (["a", "b", "c", "d"] : List String) ≠ [] ∧
    (1 < (["a", "b", "c", "d"] : List String).length →
      ∃ s, selectSitemaps 1 2 ["a", "b", "c", "d"] = .proceed s ∧
        s.length = (if (0 : Int) < 2 then
            min (Int.toNat 2) ((["a", "b", "c", "d"] : List String).length - 1)
          else (["a", "b", "c", "d"] : List String).length - 1) ∧
        ∀ i (h : i < s.length),
          ∃ (hli : 1 + i < (["a", "b", "c", "d"] : List String).length),
            s.get ⟨i, h⟩ = (["a", "b", "c", "d"] : List String).get ⟨1 + i, hli⟩) :=
  ⟨by decide, (sitemap_slice_spec 1 2 ["a", "b", "c", "d"] (by decide)).2⟩

/-! ## Cymax FlareSolverr fetch (`FlareSolverrSession.flaresolverr_request`) -/

/-- JSON command payload posted to FlareSolverr
(src/cymax/generate_chunks.py lines 74-80). -/
structure FsPayload where
  cmd : String
  url : String
  maxTimeout : Nat

def fsPayload (url : String) : FsPayload :=
  { cmd := "request.get", url := url, maxTimeout := 60000 }

/-- Outcome of one POST to the FlareSolverr endpoint: an exception
(timeout, connection error, JSON decode error), or a response carrying the
HTTP status code, the parsed JSON `status` field (`none` when absent), and
the `solution.response` content (defaulted to `""` by `.get`). -/
inductive FsOutcome where
  | err
  | resp (code : Nat) (jstatus : Option String) (solResponse : String)

/-- The success test of lines 87-98: HTTP 200 and JSON `status == "ok"`,
in which case the returned content is `solution.response`. -/
def fsSuccess : FsOutcome → Option String
  | .resp 200 (some "ok") r => some r
  | _ => none

/-- Base of the inter-attempt sleep
`time.sleep((2 ** attempt) + random.uniform(0, 1))` (line 109); the added
jitter is a uniform sample in `[0, 1)` and is not modelled. -/
def fsSleepBase (attempt : Nat) : Nat := 2 ^ attempt

/-- The retry loop of `flaresolverr_request` (lines 71-110): attempt index
`i` with `k` attempts remaining out of `m = max_retries`.  Returns the
`(content, status)` pair — `(None, 0)` after exhausting all attempts — and
the list of sleep bases executed, in order; the guard
`if attempt < max_retries - 1` (line 108) skips the sleep after the final
attempt. -/
def fsLoop (attempt : Nat → FsOutcome) (m : Nat) : Nat → Nat → (Option String × Nat) × List Nat
  | _, 0 => ((none, 0), [])
  | i, k + 1 =>
    match fsSuccess (attempt i) with
    | some content => ((some content, 200), [])
    | none =>
      let rest := fsLoop attempt m (i + 1) k
      if i < m - 1 then (rest.1, fsSleepBase i :: rest.2) else (rest.1, rest.2)

def flaresolverrRequest (attempt : Nat → FsOutcome) (m : Nat) :
    (Option String × Nat) × List Nat :=
  fsLoop attempt m 0 m

theorem fsLoop_none (attempt : Nat → FsOutcome) (m : Nat) :
    ∀ k i, i + k = m →
      (∀ j, j < k → fsSuccess (attempt (i + j)) = none) →
      fsLoop attempt m i k = ((none, 0), (List.range' i (k - 1)).map fsSleepBase) := by
  intro k
  induction k with
  | zero => intro i _ _; rfl
  | succ p ih =>
    intro i him hnone
    have h0 : fsSuccess (attempt i) = none := by
      have := hnone 0 (by omega)
      rwa [Nat.add_zero] at this
    rw [fsLoop, h0]
    have hrec := ih (i + 1) (by omega) (by
      intro j hj
      have := hnone (j + 1) (by omega)
      rwa [show i + (j + 1) = i + 1 + j by omega] at this)
    simp only [hrec]
    cases p with
    | zero =>
      have : ¬ i < m - 1 := by omega
      rw [if_neg this]
      rfl
    | succ q =>
      have : i < m - 1 := by omega
      rw [if_pos this]
      simp only [Nat.succ_sub_one]
      rw [show q + 1 = q + 1 by rfl, List.range'_succ]
      simp

theorem fsLoop_success (attempt : Nat → FsOutcome) (m : Nat) :
    ∀ k i r c, i + k = m → r < k →
      (∀ j, j < r → fsSuccess (attempt (i + j)) = none) →
      fsSuccess (attempt (i + r)) = some c →
      fsLoop attempt m i k = ((some c, 200), (List.range' i r).map fsSleepBase) := by
  intro k
  induction k with
  | zero => intro i r c _ hr; omega
  | succ p ih =>
    intro i r c him hr hnone hsucc
    cases r with
    | zero =>
      rw [Nat.add_zero] at hsucc
      rw [fsLoop, hsucc]
      rfl
    | succ q =>
      have h0 : fsSuccess (attempt i) = none := by
        have := hnone 0 (by omega)
        rwa [Nat.add_zero] at this
      rw [fsLoop, h0]
      have hrec := ih (i + 1) q c (by omega) (by omega)
        (by
          intro j hj
          have := hnone (j + 1) (by omega)
          rwa [show i + (j + 1) = i + 1 + j by omega] at this)
        (by rwa [show i + (q + 1) = i + 1 + q by omega] at hsucc)
      simp only [hrec]
      have : i < m - 1 := by omega
      rw [if_pos this, List.range'_succ]
      simp

theorem fsLoop_code (attempt : Nat → FsOutcome) (m : Nat) :
    ∀ k i, (fsLoop attempt m i k).1.2 ≠ 0 →
      ∃ j, j < k ∧ fsSuccess (attempt (i + j)) ≠ none := by
  intro k
  induction k with
  | zero => intro i h; exact absurd rfl h
  | succ p ih =>
    intro i h
    cases hs : fsSuccess (attempt i) with
    | some c =>
      exact ⟨0, by omega, by rw [Nat.add_zero, hs]; simp⟩
    | none =>
      rw [fsLoop, hs] at h
      have hrest : (fsLoop attempt m (i + 1) p).1.2 ≠ 0 := by
        by_cases hi : i < m - 1
        · rw [if_pos hi] at h; exact h
        · rw [if_neg hi] at h; exact h
      obtain ⟨j, hj, hne⟩ := ih (i + 1) hrest
      exact ⟨j + 1, by omega, by rwa [show i + (j + 1) = i + 1 + j by omega]⟩

/--
C7: `flaresolverr_request` returns `(content, 200)` only when a POST attempt
gets HTTP 200 with JSON `status == "ok"` (content being the solution's
`response` field); after `max_retries` attempts without such a response it
returns `(None, 0)`; and it sleeps `2 ^ attempt` (plus jitter) after every
failed attempt except the last.
-/
theorem flaresolverr_request_spec (attempt : Nat → FsOutcome) (m : Nat) :
    (∀ u, (fsPayload u).cmd = "request.get") ∧
    ((∀ k, k < m → fsSuccess (attempt k) = none) →
      flaresolverrRequest attempt m
        = ((none, 0), (List.range' 0 (m - 1)).map fsSleepBase)) ∧
    (∀ r c, r < m → (∀ j, j < r → fsSuccess (attempt j) = none) →
      fsSuccess (attempt r) = some c →
      flaresolverrRequest attempt m
        = ((some c, 200), (List.range' 0 r).map fsSleepBase)) ∧
    ((flaresolverrRequest attempt m).1.2 = 200 →
      ∃ j, j < m ∧ fsSuccess (attempt j) ≠ none) := by
  refine ⟨fun _ => rfl, ?_, ?_, ?_⟩
  · intro hnone
    rw [flaresolverrRequest]
    apply fsLoop_none attempt m m 0 (by omega)
    intro j hj
    rw [Nat.zero_add]
    exact hnone j hj
  · intro r c hr hnone hsucc
    rw [flaresolverrRequest]
    apply fsLoop_success attempt m m 0 r c (by omega) hr
    · intro j hj
      rw [Nat.zero_add]
      exact hnone j hj
    · rwa [Nat.zero_add]
  · intro h200
    have := fsLoop_code attempt m m 0 (by rw [flaresolverrRequest] at h200; omega)
    obtain ⟨j, hj, hne⟩ := this
    rw [Nat.zero_add] at hne
    exact ⟨j, hj, hne⟩

/-- Concrete instantiation of `flaresolverr_request_spec`: three attempts
that all fail yield `(None, 0)` with sleeps after attempts 0 and 1 only. -/
theorem flaresolverr_request_spec_witness :
    (∀ k, k < 3 → fsSuccess ((fun _ => FsOutcome.err) k) = none) ∧
    flaresolverrRequest (fun _ => FsOutcome.err) 3
      = ((none, 0), (List.range' 0 2).map fsSleepBase) :=
  ⟨by decide, (flaresolverr_request_spec (fun _ => FsOutcome.err) 3).2.1 (by
    intro k _
    rfl)⟩

/-! ## Walmart per-product processing (`WalmartScraper.process_product`,
src/walmart/walmart.py lines 378-423, and `log_failure`, lines 362-372) -/

/-- One product record from `extract_walmart_data`; only the fields that
drive `process_product`'s control flow are carried
(`comp_received_name` gates the row write at line 409). -/
structure WProduct where
  name : String
  productId : String
deriving DecidableEq

/-- Oracles for the effectful steps of `process_product`:
`clean_url` (urlparse-based query/slash stripping, line 227-230),
`extract_product_id` (regex, lines 214-225), `http_get` (network), and
`extract_walmart_data` (BeautifulSoup + JSON-LD, lines 248-332; applied to
the fetched html and the cleaned url). -/
structure WEnv where
  cleanUrl : String → String
  extractId : String → Option String
  fetchHtml : String → Option String
  extractData : String → String → List WProduct

/-- The scraper state touched by `process_product`: the shared `seen` set
(modelled as a list), the `stats` counters, the product rows written to the
output CSV, the URLs actually fetched, and the `(url, reason)` records
appended to the failure CSV. -/
structure WState where
  seen : List String
  errors : Nat
  productsFetched : Nat
  urlsProcessed : Nat
  rows : List (String × WProduct)
  fetched : List String
  failures : List (String × String)

/-- `WalmartScraper.process_product` as a state transformer (one call run
atomically).  Mirrors lines 378-423: dedup check against `seen` on the
cleaned URL, insert, then the three failure branches (no product id, fetch
failure, no JSON-LD data) each incrementing `errors` and logging exactly one
failure record, and finally one row per variant with a non-empty name. -/
def processProduct (env : WEnv) (url : String) (s : WState) : WState :=
  let base := env.cleanUrl url
  if base ∈ s.seen then s
  else
    let s1 := { s with seen := base :: s.seen }
    match env.extractId base with
    | none =>
      { s1 with errors := s1.errors + 1,
                failures := s1.failures ++ [(base, "No product ID extracted")] }
    | some _ =>
      let s2 := { s1 with fetched := s1.fetched ++ [base] }
      match env.fetchHtml base with
      | none =>
        { s2 with errors := s2.errors + 1,
                  failures := s2.failures ++ [(base, "HTTP fetch failed")] }
      | some html =>
        let products := env.extractData html base
        if products.isEmpty then
          { s2 with errors := s2.errors + 1,
                    failures := s2.failures ++ [(base, "No product data found in JSON-LD")] }
        else
          let kept := products.filter (fun p => p.name != "")
          { s2 with rows := s2.rows ++ kept.map (fun p => (base, p)),
                    productsFetched := s2.productsFetched + kept.length,
                    urlsProcessed := s2.urlsProcessed + 1 }

/-- Consistency invariant: the `seen` set has no duplicates, every fetched
URL and every written row's URL is a member of `seen`, and no URL was
fetched twice. -/
def WInv (s : WState) : Prop :=
  s.seen.Nodup ∧ (∀ u ∈ s.fetched, u ∈ s.seen) ∧ s.fetched.Nodup ∧
    (∀ r ∈ s.rows, r.1 ∈ s.seen)

theorem processProduct_short_circuit (env : WEnv) (u : String) (s : WState)
    (h : env.cleanUrl u ∈ s.seen) : processProduct env u s = s := by
  rw [processProduct, if_pos h]

theorem processProduct_seen (env : WEnv) (u : String) (s : WState)
    (h : env.cleanUrl u ∉ s.seen) :
    (processProduct env u s).seen = env.cleanUrl u :: s.seen := by
  rw [processProduct, if_neg h]
  cases env.extractId (env.cleanUrl u) with
  | none => rfl
  | some pid =>
    cases env.fetchHtml (env.cleanUrl u) with
    | none => rfl
    | some html =>
      by_cases hemp : (env.extractData html (env.cleanUrl u)).isEmpty
      · simp only [if_pos hemp]
      · simp only [if_neg hemp]

theorem processProduct_seen_mono (env : WEnv) (u : String) (s : WState) :
    ∀ x ∈ s.seen, x ∈ (processProduct env u s).seen := by
  intro x hx
  by_cases h : env.cleanUrl u ∈ s.seen
  · rw [processProduct_short_circuit env u s h]; exact hx
  · rw [processProduct_seen env u s h]; exact List.mem_cons_of_mem _ hx

theorem processProduct_fetched (env : WEnv) (u : String) (s : WState) :
    (processProduct env u s).fetched = s.fetched ∨
      (env.cleanUrl u ∉ s.seen ∧
        (processProduct env u s).fetched = s.fetched ++ [env.cleanUrl u]) := by
  by_cases h : env.cleanUrl u ∈ s.seen
  · left; rw [processProduct_short_circuit env u s h]
  · rw [processProduct, if_neg h]
    cases env.extractId (env.cleanUrl u) with
    | none => left; rfl
    | some pid =>
      cases env.fetchHtml (env.cleanUrl u) with
      | none => right; exact ⟨h, rfl⟩
      | some html =>
        by_cases hemp : (env.extractData html (env.cleanUrl u)).isEmpty
        · right; refine ⟨h, ?_⟩; simp only [if_pos hemp]
        · right; refine ⟨h, ?_⟩; simp only [if_neg hemp]

theorem processProduct_rows (env : WEnv) (u : String) (s : WState) :
    (processProduct env u s).rows = s.rows ∨
      (env.cleanUrl u ∉ s.seen ∧
        ∃ ps : List WProduct, (processProduct env u s).rows
          = s.rows ++ ps.map (fun p => (env.cleanUrl u, p))) := by
  by_cases h : env.cleanUrl u ∈ s.seen
  · left; rw [processProduct_short_circuit env u s h]
  · rw [processProduct, if_neg h]
    cases env.extractId (env.cleanUrl u) with
    | none => left; rfl
    | some pid =>
      cases env.fetchHtml (env.cleanUrl u) with
      | none => left; rfl
      | some html =>
        by_cases hemp : (env.extractData html (env.cleanUrl u)).isEmpty
        · left; simp only [if_pos hemp]
        · right
          refine ⟨h, (env.extractData html (env.cleanUrl u)).filter
            (fun p => p.name != ""), ?_⟩
          simp only [if_neg hemp]

theorem processProduct_inv (env : WEnv) (u : String) (s : WState)
    (hinv : WInv s) : WInv (processProduct env u s) := by
  obtain ⟨hnodup, hfs, hfnodup, hrs⟩ := hinv
  by_cases h : env.cleanUrl u ∈ s.seen
  · rw [processProduct_short_circuit env u s h]
    exact ⟨hnodup, hfs, hfnodup, hrs⟩
  · have hseen := processProduct_seen env u s h
    have hnodup2 : (processProduct env u s).seen.Nodup := by
      rw [hseen]; exact List.nodup_cons.mpr ⟨h, hnodup⟩
    refine ⟨hnodup2, ?_, ?_, ?_⟩
    · intro x hx
      rcases processProduct_fetched env u s with hf | ⟨_, hf⟩
      · rw [hf] at hx
        rw [hseen]
        exact List.mem_cons_of_mem _ (hfs x hx)
      · rw [hf] at hx
        rw [hseen]
        rcases List.mem_append.mp hx with hx1 | hx1
        · exact List.mem_cons_of_mem _ (hfs x hx1)
        · simp only [List.mem_singleton] at hx1
          rw [hx1]
          exact List.mem_cons_self _ _
    · rcases processProduct_fetched env u s with hf | ⟨_, hf⟩
      · rw [hf]; exact hfnodup
      · rw [hf]
        apply List.Nodup.append hfnodup (List.nodup_singleton _)
        intro x hx1 hx2
        simp only [List.mem_singleton] at hx2
        rw [hx2] at hx1
        exact h (hfs _ hx1)
    · intro r hr
      rcases processProduct_rows env u s with hrw | ⟨_, ps, hrw⟩
      · rw [hrw] at hr
        rw [hseen]
        exact List.mem_cons_of_mem _ (hrs r hr)
      · rw [hrw] at hr
        rw [hseen]
        rcases List.mem_append.mp hr with hr1 | hr1
        · exact List.mem_cons_of_mem _ (hrs r hr1)
        · obtain ⟨p, _, hp⟩ := List.mem_map.mp hr1
          rw [← hp]
          exact List.mem_cons_self _ _

/-! ### The shared `seen` set under concurrency

`process_product` runs concurrently on a thread pool, so the membership
check and the insert on the shared `seen` set are separate interleavable
steps in the Walmart scraper (lines 382-384) and the LuxeDecor scraper
(lines 434-436), while the BisonOffice scraper performs them atomically
under `seen_lock` (`process_product_data`, lines 719-722). -/

/-- The atomic steps through which one worker touches the shared `seen`
set and then does its per-URL work. -/
inductive DedupStep where
  | check (u : String)        -- `if u in seen: return` alone (no lock held)
  | insert (u : String)       -- `seen.add(u)` alone (no lock held)
  | checkInsert (u : String)  -- `with seen_lock: if u in seen: return; seen.add(u)`
  | body (u : String)         -- the fetch / extraction / row writes for `u`
deriving DecidableEq

/-- Shared state plus the per-thread remaining programs.  `fetched` logs the
URLs whose per-URL body actually ran (each run fetches and may write rows). -/
structure DedupState where
  seen : List String
  fetched : List String
  threads : List (List DedupStep)
deriving DecidableEq

/-- A Walmart / LuxeDecor worker processing `u`: unsynchronized
check-then-insert followed by the body. -/
def walmartSeenThread (u : String) : List DedupStep :=
  [.check u, .insert u, .body u]

/-- A BisonOffice worker processing `u`: the check and insert are one step
because `process_product_data` holds `seen_lock` around both. -/
def bisonSeenThread (u : String) : List DedupStep :=
  [.checkInsert u, .body u]

/-- Run one step of thread `t` (no-op when `t` has no steps left): a failed
membership check drops the rest of the thread's program (the early
`return`), otherwise the thread advances. -/
def dedupStep (s : DedupState) (t : Nat) : DedupState :=
  match s.threads.get? t with
  | none => s
  | some [] => s
  | some (a :: rest) =>
    match a with
    | .check u =>
        if u ∈ s.seen then { s with threads := s.threads.set t [] }
        else { s with threads := s.threads.set t rest }
    | .insert u =>
        { s with seen := u :: s.seen, threads := s.threads.set t rest }
    | .checkInsert u =>
        if u ∈ s.seen then { s with threads := s.threads.set t [] }
        else { s with seen := u :: s.seen, threads := s.threads.set t rest }
    | .body u =>
        { s with fetched := s.fetched ++ [u], threads := s.threads.set t rest }

theorem countP_set_eq {α : Type} (f : α → Bool) :
    ∀ (l : List α) (t : Nat) (x p : α), l.get? t = some p →
      (l.set t x).countP f + (f p).toNat = l.countP f + (f x).toNat := by
  intro l
  induction l with
  | nil => intro t x p h; simp at h
  | cons a l2 ih =>
    intro t x p h
    cases t with
    | zero =>
      have ha : a = p := by simpa using h
      subst ha
      simp only [List.set]
      rw [List.countP_cons, List.countP_cons]
      cases hfa : f a <;> cases hfx : f x <;> simp [hfa, hfx]
    | succ t2 =>
      have h2 : l2.get? t2 = some p := by simpa using h
      simp only [List.set]
      rw [List.countP_cons, List.countP_cons]
      have := ih t2 x p h2
      omega

/-- Number of threads whose whole remaining program is the body for `u`. -/
def pendingBody (u : String) (threads : List (List DedupStep)) : Nat :=
  threads.countP (fun p => p == [DedupStep.body u])

theorem pendingBody_set (u : String) (threads : List (List DedupStep))
    (t : Nat) (x p : List DedupStep) (hget : threads.get? t = some p) :
    pendingBody u (threads.set t x) + (p == [DedupStep.body u]).toNat
      = pendingBody u threads + (x == [DedupStep.body u]).toNat :=
  countP_set_eq (fun q => q == [DedupStep.body u]) threads t x p hget

/-- Shapes a BisonOffice worker\'s remaining program can take. -/
def bShape (p : List DedupStep) : Prop :=
  p = [] ∨ ∃ u, p = [DedupStep.checkInsert u, DedupStep.body u] ∨
    p = [DedupStep.body u]

/-- Invariant of the locked (BisonOffice) dedup: `seen` and `fetched` are
duplicate-free, everything fetched was inserted, at most one thread is past
the gate for any URL, and a thread past the gate for `u` implies `u ∈ seen`
and `u` not yet fetched. -/
def DInv (s : DedupState) : Prop :=
  s.seen.Nodup ∧ s.fetched.Nodup ∧
  (∀ u ∈ s.fetched, u ∈ s.seen) ∧
  (∀ u ∈ s.fetched, pendingBody u s.threads = 0) ∧
  (∀ u, pendingBody u s.threads ≤ 1) ∧
  (∀ u, 1 ≤ pendingBody u s.threads → u ∈ s.seen) ∧
  (∀ p ∈ s.threads, bShape p)

theorem dedupStep_inv (s : DedupState) (t : Nat) (hinv : DInv s) :
    DInv (dedupStep s t) := by
  obtain ⟨hsn, hfn, hfs, hfp, hp1, hps, hsh⟩ := hinv
  cases hget : s.threads.get? t with
  | none =>
    have hd : dedupStep s t = s := by rw [dedupStep, hget]
    rw [hd]
    exact ⟨hsn, hfn, hfs, hfp, hp1, hps, hsh⟩
  | some p =>
    have hpmem : p ∈ s.threads := List.get?_mem hget
    rcases hsh p hpmem with rfl | ⟨u, hsp | hsp⟩
    · have hd : dedupStep s t = s := by rw [dedupStep, hget]
      rw [hd]
      exact ⟨hsn, hfn, hfs, hfp, hp1, hps, hsh⟩
    · subst hsp
      have hbci : ∀ u2, (([DedupStep.checkInsert u, DedupStep.body u] :
          List DedupStep) == [DedupStep.body u2]) = false := by
        intro u2; simp
      have hbnil : ∀ u2, (([] : List DedupStep)
          == [DedupStep.body u2]) = false := by
        intro u2; simp
      have hdif : dedupStep s t = if u ∈ s.seen
          then { s with threads := s.threads.set t [] }
          else { s with seen := u :: s.seen,
                        threads := s.threads.set t [DedupStep.body u] } := by
        rw [dedupStep, hget]
      by_cases hu : u ∈ s.seen
      · -- the gate fails: the thread aborts, nothing else changes
        rw [hdif, if_pos hu]
        have hpend : ∀ u2, pendingBody u2 (s.threads.set t [])
            = pendingBody u2 s.threads := by
          intro u2
          have hp2 := pendingBody_set u2 s.threads t [] _ hget
          rw [hbci u2, hbnil u2, Bool.toNat_false] at hp2
          omega
        refine ⟨hsn, hfn, hfs, ?_, ?_, ?_, ?_⟩
        · intro u2 hu2
          show pendingBody u2 (s.threads.set t []) = 0
          rw [hpend u2]
          exact hfp u2 hu2
        · intro u2
          show pendingBody u2 (s.threads.set t []) ≤ 1
          rw [hpend u2]
          exact hp1 u2
        · intro u2 h2
          have h3 : 1 ≤ pendingBody u2 (s.threads.set t []) := h2
          rw [hpend u2] at h3
          exact hps u2 h3
        · intro q hq
          rcases List.mem_or_eq_of_mem_set hq with hq2 | rfl
          · exact hsh q hq2
          · left; rfl
      · -- the gate passes: `u` is inserted and the thread moves to its body
        rw [hdif, if_neg hu]
        have hu0 : pendingBody u s.threads = 0 := by
          by_contra hc
          exact hu (hps u (by omega))
        have hufetched : u ∉ s.fetched := fun hc => hu (hfs u hc)
        have hpendu : pendingBody u (s.threads.set t [DedupStep.body u]) = 1 := by
          have hp2 := pendingBody_set u s.threads t [DedupStep.body u] _ hget
          rw [hbci u, Bool.toNat_false,
            show (([DedupStep.body u] : List DedupStep)
              == [DedupStep.body u]) = true from by simp,
            Bool.toNat_true] at hp2
          omega
        have hpendo : ∀ u2, u2 ≠ u →
            pendingBody u2 (s.threads.set t [DedupStep.body u])
              = pendingBody u2 s.threads := by
          intro u2 hne
          have hp2 := pendingBody_set u2 s.threads t [DedupStep.body u] _ hget
          rw [hbci u2, Bool.toNat_false,
            show (([DedupStep.body u] : List DedupStep)
              == [DedupStep.body u2]) = false from by simp [Ne.symm hne],
            Bool.toNat_false] at hp2
          omega
        refine ⟨List.nodup_cons.mpr ⟨hu, hsn⟩, hfn, ?_, ?_, ?_, ?_, ?_⟩
        · intro u2 hu2
          exact List.mem_cons_of_mem _ (hfs u2 hu2)
        · intro u2 hu2
          have hu2b : u2 ∈ s.fetched := hu2
          have hne : u2 ≠ u := fun hc => hufetched (hc ▸ hu2b)
          show pendingBody u2 (s.threads.set t [DedupStep.body u]) = 0
          rw [hpendo u2 hne]
          exact hfp u2 hu2b
        · intro u2
          show pendingBody u2 (s.threads.set t [DedupStep.body u]) ≤ 1
          by_cases hne : u2 = u
          · subst hne
            rw [hpendu]
          · rw [hpendo u2 hne]
            exact hp1 u2
        · intro u2 h2
          have h3 : 1 ≤ pendingBody u2 (s.threads.set t [DedupStep.body u]) := h2
          by_cases hne : u2 = u
          · subst hne
            exact List.mem_cons_self _ _
          · rw [hpendo u2 hne] at h3
            exact List.mem_cons_of_mem _ (hps u2 h3)
        · intro q hq
          rcases List.mem_or_eq_of_mem_set hq with hq2 | rfl
          · exact hsh q hq2
          · right; exact ⟨u, Or.inr rfl⟩
    · subst hsp
      -- the thread runs its body: `u` is fetched exactly now
      have hd : dedupStep s t = { s with fetched := s.fetched ++ [u],
                                          threads := s.threads.set t [] } := by
        rw [dedupStep, hget]
      rw [hd]
      have hbnil : ∀ u2, (([] : List DedupStep)
          == [DedupStep.body u2]) = false := by
        intro u2; simp
      have hpend1 : 1 ≤ pendingBody u s.threads := by
        have hpos : 0 < s.threads.countP (fun q => q == [DedupStep.body u]) := by
          rw [List.countP_pos_iff]
          exact ⟨[DedupStep.body u], hpmem, by simp⟩
        have heq : pendingBody u s.threads
            = s.threads.countP (fun q => q == [DedupStep.body u]) := rfl
        omega
      have hseen : u ∈ s.seen := hps u hpend1
      have hufetched : u ∉ s.fetched := by
        intro hc
        have := hfp u hc
        omega
      have hpendu : pendingBody u (s.threads.set t []) + 1
          = pendingBody u s.threads := by
        have hp2 := pendingBody_set u s.threads t [] _ hget
        rw [hbnil u, Bool.toNat_false,
          show (([DedupStep.body u] : List DedupStep)
            == [DedupStep.body u]) = true from by simp,
          Bool.toNat_true] at hp2
        omega
      have hpendo : ∀ u2, u2 ≠ u → pendingBody u2 (s.threads.set t [])
          = pendingBody u2 s.threads := by
        intro u2 hne
        have hp2 := pendingBody_set u2 s.threads t [] _ hget
        rw [hbnil u2, Bool.toNat_false,
          show (([DedupStep.body u] : List DedupStep)
            == [DedupStep.body u2]) = false from by simp [Ne.symm hne],
          Bool.toNat_false] at hp2
        omega
      refine ⟨hsn, ?_, ?_, ?_, ?_, ?_, ?_⟩
      · show (s.fetched ++ [u]).Nodup
        apply List.Nodup.append hfn (List.nodup_singleton u)
        intro x hx1 hx2
        simp only [List.mem_singleton] at hx2
        exact hufetched (hx2 ▸ hx1)
      · intro u2 hu2
        have hu2b : u2 ∈ s.fetched ++ [u] := hu2
        rcases List.mem_append.mp hu2b with h2 | h2
        · exact hfs u2 h2
        · simp only [List.mem_singleton] at h2
          exact h2 ▸ hseen
      · intro u2 hu2
        have hu2b : u2 ∈ s.fetched ++ [u] := hu2
        show pendingBody u2 (s.threads.set t []) = 0
        rcases List.mem_append.mp hu2b with h2 | h2
        · have hne : u2 ≠ u := fun hc => hufetched (hc ▸ h2)
          rw [hpendo u2 hne]
          exact hfp u2 h2
        · simp only [List.mem_singleton] at h2
          subst h2
          have := hp1 u2
          omega
      · intro u2
        show pendingBody u2 (s.threads.set t []) ≤ 1
        by_cases hne : u2 = u
        · subst hne
          have := hp1 u2
          omega
        · rw [hpendo u2 hne]
          exact hp1 u2
      · intro u2 h2
        have h3 : 1 ≤ pendingBody u2 (s.threads.set t []) := h2
        by_cases hne : u2 = u
        · exact hne ▸ hseen
        · rw [hpendo u2 hne] at h3
          exact hps u2 h3
      · intro q hq
        rcases List.mem_or_eq_of_mem_set hq with hq2 | rfl
        · exact hsh q hq2
        · left; rfl

theorem dedupRun_inv (sched : List Nat) :
    ∀ s, DInv s → DInv (sched.foldl dedupStep s) := by
  induction sched with
  | nil => intro s h; exact h
  | cons t rest ih =>
    intro s h
    rw [List.foldl_cons]
    exact ih _ (dedupStep_inv s t h)

theorem dedupStep_seen_mono (s : DedupState) (t : Nat) :
    ∀ x ∈ s.seen, x ∈ (dedupStep s t).seen := by
  intro x hx
  cases hget : s.threads.get? t with
  | none =>
    have hd : dedupStep s t = s := by rw [dedupStep, hget]
    rw [hd]
    exact hx
  | some p =>
    cases p with
    | nil =>
      have hd : dedupStep s t = s := by rw [dedupStep, hget]
      rw [hd]
      exact hx
    | cons a rest =>
      cases a with
      | check u =>
        have hd : dedupStep s t = if u ∈ s.seen
            then { s with threads := s.threads.set t [] }
            else { s with threads := s.threads.set t rest } := by
          rw [dedupStep, hget]
        rw [hd]
        by_cases hu : u ∈ s.seen
        · rw [if_pos hu]; exact hx
        · rw [if_neg hu]; exact hx
      | insert u =>
        have hd : dedupStep s t = { s with seen := u :: s.seen,
                                           threads := s.threads.set t rest } := by
          rw [dedupStep, hget]
        rw [hd]
        exact List.mem_cons_of_mem _ hx
      | checkInsert u =>
        have hd : dedupStep s t = if u ∈ s.seen
            then { s with threads := s.threads.set t [] }
            else { s with seen := u :: s.seen,
                          threads := s.threads.set t rest } := by
          rw [dedupStep, hget]
        rw [hd]
        by_cases hu : u ∈ s.seen
        · rw [if_pos hu]; exact hx
        · rw [if_neg hu]; exact List.mem_cons_of_mem _ hx
      | body u =>
        simp only [dedupStep, hget]
        exact hx

theorem dedupRun_seen_mono (sched : List Nat) :
    ∀ (s : DedupState) (x : String), x ∈ s.seen →
      x ∈ (sched.foldl dedupStep s).seen := by
  induction sched with
  | nil => intro s x h; exact h
  | cons t rest ih =>
    intro s x h
    rw [List.foldl_cons]
    exact ih _ x (dedupStep_seen_mono s t x h)

theorem DInv_init (urls : List String) :
    DInv ⟨[], [], urls.map bisonSeenThread⟩ := by
  refine ⟨List.nodup_nil, List.nodup_nil,
    (by intro u hu; cases hu), (by intro u hu; cases hu), ?_, ?_, ?_⟩
  · intro u
    show pendingBody u (urls.map bisonSeenThread) ≤ 1
    have : pendingBody u (urls.map bisonSeenThread) = 0 := by
      rw [pendingBody, List.countP_eq_zero]
      intro p hp
      obtain ⟨u2, _, rfl⟩ := List.mem_map.mp hp
      simp [bisonSeenThread]
    omega
  · intro u h
    have h2 : 1 ≤ pendingBody u (urls.map bisonSeenThread) := h
    have : pendingBody u (urls.map bisonSeenThread) = 0 := by
      rw [pendingBody, List.countP_eq_zero]
      intro p hp
      obtain ⟨u2, _, rfl⟩ := List.mem_map.mp hp
      simp [bisonSeenThread]
    omega
  · intro p hp
    obtain ⟨u2, _, rfl⟩ := List.mem_map.mp hp
    right
    exact ⟨u2, Or.inl rfl⟩

/--
C9 counterexample: the Walmart (and LuxeDecor) membership check and insert
on the shared `seen` set are separate unlocked steps running on a thread
pool.  Two workers given the same cleaned URL `"u"` (two sitemap entries
whose cleaned forms coincide) can interleave as
check(A), check(B), insert(A), body(A), insert(B), body(B): both pass the
membership test before either inserts, both fetch, and both write rows —
the URL is processed twice and inserted twice, refuting "processed at most
once" and "inserted exactly once".
-/
theorem seen_race_counterexample :
    (([0, 1, 0, 0, 1, 1] : List Nat).foldl dedupStep
        ⟨[], [], [walmartSeenThread "u", walmartSeenThread "u"]⟩).fetched
      = ["u", "u"] ∧
    ¬ (([0, 1, 0, 0, 1, 1] : List Nat).foldl dedupStep
        ⟨[], [], [walmartSeenThread "u", walmartSeenThread "u"]⟩).fetched.Nodup ∧
    (([0, 1, 0, 0, 1, 1] : List Nat).foldl dedupStep
        ⟨[], [], [walmartSeenThread "u", walmartSeenThread "u"]⟩).seen
      = ["u", "u"] := by
  decide

/--
C9 (amended): per call, `process_product` consults the shared `seen` set and
returns immediately — no fetch, no row — when the (cleaned) URL is already a
member, and only otherwise inserts it and proceeds, so `seen` only grows
under any interleaving; in the BisonOffice scraper, whose check-and-insert
runs atomically under `seen_lock`, each distinct URL's per-URL body runs at
most once and each URL is inserted at most once under every thread
interleaving; in the Walmart and LuxeDecor scrapers the check and insert are
unsynchronized, so the at-most-once guarantee holds only when calls do not
interleave (see the counterexample).
-/
theorem seen_dedup_amended (env : WEnv) (urls : List String) (sched : List Nat) :
    (∀ u s, env.cleanUrl u ∈ s.seen → processProduct env u s = s) ∧
    (∀ u s, env.cleanUrl u ∉ s.seen →
      (processProduct env u s).seen = env.cleanUrl u :: s.seen) ∧
    (sched.foldl dedupStep ⟨[], [], urls.map bisonSeenThread⟩).fetched.Nodup ∧
    (sched.foldl dedupStep ⟨[], [], urls.map bisonSeenThread⟩).seen.Nodup ∧
    (∀ (s0 : DedupState) (x : String), x ∈ s0.seen →
      x ∈ (sched.foldl dedupStep s0).seen) := by
  have hinv := dedupRun_inv sched _ (DInv_init urls)
  exact ⟨fun u s => processProduct_short_circuit env u s,
    fun u s => processProduct_seen env u s,
    hinv.2.1, hinv.1, fun s0 => dedupRun_seen_mono sched s0⟩

/-- Concrete instantiation of `seen_dedup_amended`: the locked BisonOffice
dedup with two workers racing on the same URL fetches it once, and the
per-call short-circuit fires on a state that has already seen the URL. -/
theorem seen_dedup_amended_witness :
    ((id "u" : String) ∈ (["u"] : List String)) ∧
    processProduct ⟨id, fun _ => none, fun _ => none, fun _ _ => []⟩ "u"
        ⟨["u"], 0, 0, 0, [], [], []⟩
      = ⟨["u"], 0, 0, 0, [], [], []⟩ ∧
    (([0, 1, 0, 1] : List Nat).foldl dedupStep
      ⟨[], [], (["u", "u"] : List String).map bisonSeenThread⟩).fetched.Nodup :=
  ⟨by decide,
   (seen_dedup_amended ⟨id, fun _ => none, fun _ => none, fun _ _ => []⟩
      ["u", "u"] [0, 1, 0, 1]).1 "u" ⟨["u"], 0, 0, 0, [], [], []⟩ (by decide),
   (seen_dedup_amended ⟨id, fun _ => none, fun _ => none, fun _ _ => []⟩
      ["u", "u"] [0, 1, 0, 1]).2.2.1⟩

/-- `WalmartScraper.log_failure` (lines 362-372) as the rows appended to the
failure CSV: the header row `["URL", "Reason", "Timestamp"]` is written only
when the file does not exist yet, followed by the single failure record. -/
def logFailureRows (fileExists : Bool) (prev : List (List String))
    (url reason ts : String) : List (List String) :=
  prev ++ (if fileExists then [] else [["URL", "Reason", "Timestamp"]])
    ++ [[url, reason, ts]]

/--
C10: when processing a product URL fails in the Walmart scraper — no product
ID, failed fetch, or no JSON-LD data — no row is written to the output CSV,
the `errors` counter is incremented, and exactly one `(url, reason)` record
is appended to the failure CSV, whose header is written only on file
creation.
-/
theorem process_product_failure_paths (env : WEnv) (u : String) (s : WState)
    (hnew : env.cleanUrl u ∉ s.seen) :
    (env.extractId (env.cleanUrl u) = none →
      (processProduct env u s).rows = s.rows ∧
      (processProduct env u s).errors = s.errors + 1 ∧
      (processProduct env u s).failures
        = s.failures ++ [(env.cleanUrl u, "No product ID extracted")]) ∧
    (∀ pid, env.extractId (env.cleanUrl u) = some pid →
      env.fetchHtml (env.cleanUrl u) = none →
      (processProduct env u s).rows = s.rows ∧
      (processProduct env u s).errors = s.errors + 1 ∧
      (processProduct env u s).failures
        = s.failures ++ [(env.cleanUrl u, "HTTP fetch failed")]) ∧
    (∀ pid html, env.extractId (env.cleanUrl u) = some pid →
      env.fetchHtml (env.cleanUrl u) = some html →
      env.extractData html (env.cleanUrl u) = [] →
      (processProduct env u s).rows = s.rows ∧
      (processProduct env u s).errors = s.errors + 1 ∧
      (processProduct env u s).failures
        = s.failures ++ [(env.cleanUrl u, "No product data found in JSON-LD")]) ∧
    (∀ prev url r ts, logFailureRows true prev url r ts = prev ++ [[url, r, ts]]) ∧
    (∀ prev url r ts, logFailureRows false prev url r ts
      = prev ++ [["URL", "Reason", "Timestamp"], [url, r, ts]]) := by
  refine ⟨?_, ?_, ?_, fun _ _ _ _ => by simp [logFailureRows],
    fun _ _ _ _ => by simp [logFailureRows]⟩
  · intro hid
    rw [processProduct, if_neg hnew, hid]
    exact ⟨rfl, rfl, rfl⟩
  · intro pid hid hfetch
    rw [processProduct, if_neg hnew, hid, hfetch]
    exact ⟨rfl, rfl, rfl⟩
  · intro pid html hid hfetch hdata
    rw [processProduct, if_neg hnew, hid, hfetch]
    have hemp : (env.extractData html (env.cleanUrl u)).isEmpty = true := by
      rw [hdata]; rfl
    simp [hemp]

/-- Concrete instantiation of `process_product_failure_paths`: a URL whose
product-id extraction fails logs one failure and writes no row. -/
theorem process_product_failure_paths_witness :
    (("u" : String) ∉ ([] : List String)) ∧
    ((processProduct ⟨id, fun _ => none, fun _ => none, fun _ _ => []⟩ "u"
        ⟨[], 0, 0, 0, [], [], []⟩).failures
      = [("u", "No product ID extracted")]) := by
  refine ⟨by decide, ?_⟩
  have h := (process_product_failure_paths
    ⟨id, fun _ => none, fun _ => none, fun _ _ => []⟩ "u"
    ⟨[], 0, 0, 0, [], [], []⟩ (by decide)).1 rfl
  exact h.2.2

/-! ## Sitemap regex fallback (`load_xml` of walmart / luxedecor /
bisonoffice) -/

/-- Boolean prefix test on character lists. -/
def isPre : List Char → List Char → Bool
  | [], _ => true
  | _ :: _, [] => false
  | p :: ps, c :: cs => p == c && isPre ps cs

/-- The literal `<loc>` opening tag. -/
def openLoc : List Char := ['<', 'l', 'o', 'c', '>']

/-- The literal `</loc>` closing tag. -/
def closeLoc : List Char := ['<', '/', 'l', 'o', 'c', '>']

/-- The scheme alternatives of the regex group `https?://`. -/
def schemeHttp : List Char := ['h', 't', 't', 'p', ':', '/', '/']

def schemeHttps : List Char := ['h', 't', 't', 'p', 's', ':', '/', '/']

/-- Matching of `https?://` at the head of `l`: the greedy optional `s?`
tries `https://` first and falls back to `http://`; returns the consumed
scheme and the remainder. -/
def schemeSplit (l : List Char) : Option (List Char × List Char) :=
  if isPre schemeHttps l then some (schemeHttps, l.drop 8)
  else if isPre schemeHttp l then some (schemeHttp, l.drop 7)
  else none

/-- One attempted match of `(https?://[^<]+)</loc>` on the text following an
`<loc>` tag (the fallback regex of `WalmartScraper.load_xml` line 169 and
`LuxeDecorScraper.load_xml` line 169): scheme, then the greedy run of
non-`<` characters (at least one), then the literal `</loc>`.  Returns the
captured group and the text after the match. -/
def locParseAt (l : List Char) : Option (List Char × List Char) :=
  match schemeSplit l with
  | none => none
  | some (sch, rest) =>
    let body := rest.takeWhile (fun c => c != '<')
    let after := rest.dropWhile (fun c => c != '<')
    if body.isEmpty then none
    else if isPre closeLoc after then some (sch ++ body, after.drop 6)
    else none

/-- All matches of `re.findall(r'<loc>(https?://[^<]+)</loc>', data)` in
document order, scanning every position.  A match contains no `<loc>`
substring after its start (`[^<]+` excludes `<` and `</loc>` does not start
with `<loc>`), so positionwise scanning finds exactly `re.findall`'s
non-overlapping matches. -/
def locFindAll : List Char → List (List Char)
  | [] => []
  | c :: cs =>
    if isPre openLoc (c :: cs) then
      match locParseAt ((c :: cs).drop 5) with
      | some (url, _) => url :: locFindAll cs
      | none => locFindAll cs
    else locFindAll cs

/-- `WalmartScraper.load_xml` fallback (lines 167-173): the `<loc>` children
texts are `loc_elem.text = url_text` — the matches kept verbatim. -/
def walmartFallbackLocs (data : List Char) : List (List Char) := locFindAll data

/-- `LuxeDecorScraper.load_xml` fallback (lines 166-174): identical to the
Walmart one, `loc_elem.text = url_text` with no stripping. -/
def luxedecorFallbackLocs (data : List Char) : List (List Char) := locFindAll data

/-- The claim's description of the fallback children: the regex matches,
whitespace-stripped. -/
def pyWhitespace (c : Char) : Bool :=
  c == ' ' || c == '\t' || c == '\n' || c == '\r' || c == '\x0b' || c == '\x0c'

/-- Python `str.strip()` (over the ASCII whitespace relevant here). -/
def pyStrip (l : List Char) : List Char :=
  ((l.dropWhile pyWhitespace).reverse.dropWhile pyWhitespace).reverse

/-- What the claim says the fallback produces: the matched URLs, stripped of
whitespace. -/
def strippedLocMatches (data : List Char) : List (List Char) :=
  (locFindAll data).map pyStrip

/-- The literal `<![CDATA[` marker. -/
def cdOpen : List Char := ['<', '!', '[', 'C', 'D', 'A', 'T', 'A', '[']

/-- The literal `]]>` marker. -/
def cdClose : List Char := [']', ']', '>']

/-- One attempted match of the BisonOffice fallback pattern
`(?:<!\[CDATA\[)?(https?://[^<\]]+?)(?:]]>)?</loc>` after an `<loc>` tag
(`BisonofficeScraper.load_xml` line 251): optional CDATA opener, scheme,
then the lazy run `[^<\]]+?` — which extends exactly to the first `<` or `]`
since later continuations cannot consume those characters — then an optional
`]]>`, then `</loc>`. -/
def bisonParseAt (l : List Char) : Option (List Char × List Char) :=
  let l1 := if isPre cdOpen l then l.drop 9 else l
  match schemeSplit l1 with
  | none => none
  | some (sch, rest) =>
    let body := rest.takeWhile (fun c => c != '<' && c != ']')
    let after := rest.dropWhile (fun c => c != '<' && c != ']')
    if body.isEmpty then none
    else
      let after2 := if isPre cdClose after then after.drop 3 else after
      if isPre closeLoc after2 then some (sch ++ body, after2.drop 6) else none

/-- All matches of the BisonOffice fallback pattern, scanning every
position (same non-overlap argument as `locFindAll`: `<loc>` cannot occur
inside a match after its start). -/
def bisonFindAll : List Char → List (List Char)
  | [] => []
  | c :: cs =>
    if isPre openLoc (c :: cs) then
      match bisonParseAt ((c :: cs).drop 5) with
      | some (url, _) => url :: bisonFindAll cs
      | none => bisonFindAll cs
    else bisonFindAll cs

/-- `BisonofficeScraper.load_xml` fallback (lines 248-257): here the text is
`url_text.strip()`. -/
def bisonFallbackLocs (data : List Char) : List (List Char) :=
  (bisonFindAll data).map pyStrip

theorem isPre_append_self : ∀ (p r : List Char), isPre p (p ++ r) = true := by
  intro p
  induction p with
  | nil => intro r; rfl
  | cons a ps ih =>
    intro r
    simp [isPre, ih r]

theorem locFindAll_skip : ∀ (l r : List Char), (∀ c ∈ l, c ≠ '<') →
    locFindAll (l ++ r) = locFindAll r := by
  intro l
  induction l with
  | nil => intro r _; rfl
  | cons c cs ih =>
    intro r hl
    have hc : c ≠ '<' := hl c (List.mem_cons_self c cs)
    have hb : isPre openLoc (c :: (cs ++ r)) = false := by
      simp [isPre, openLoc]
      intro h
      exact absurd h.symm hc
    rw [List.cons_append, locFindAll, hb]
    simp only [Bool.false_eq_true, if_false]
    exact ih r (fun x hx => hl x (List.mem_cons_of_mem c hx))

theorem bisonFindAll_skip : ∀ (l r : List Char), (∀ c ∈ l, c ≠ '<') →
    bisonFindAll (l ++ r) = bisonFindAll r := by
  intro l
  induction l with
  | nil => intro r _; rfl
  | cons c cs ih =>
    intro r hl
    have hc : c ≠ '<' := hl c (List.mem_cons_self c cs)
    have hb : isPre openLoc (c :: (cs ++ r)) = false := by
      simp [isPre, openLoc]
      intro h
      exact absurd h.symm hc
    rw [List.cons_append, bisonFindAll, hb]
    simp only [Bool.false_eq_true, if_false]
    exact ih r (fun x hx => hl x (List.mem_cons_of_mem c hx))

theorem schemeSplit_match (sch X : List Char)
    (hsch : sch = schemeHttp ∨ sch = schemeHttps) :
    schemeSplit (sch ++ X) = some (sch, X) := by
  rcases hsch with h | h <;> subst h
  · have h1 : isPre schemeHttps (schemeHttp ++ X) = false := by
      simp [isPre, schemeHttp, schemeHttps, List.cons_append]
    have h2 : isPre schemeHttp (schemeHttp ++ X) = true := isPre_append_self _ _
    rw [schemeSplit, h1, h2]
    simp only [Bool.false_eq_true, if_false, if_true]
    rw [List.drop_left' (by simp [schemeHttp])]
  · have h1 : isPre schemeHttps (schemeHttps ++ X) = true := isPre_append_self _ _
    rw [schemeSplit, h1]
    simp only [if_true]
    rw [List.drop_left' (by simp [schemeHttps])]

theorem locParseAt_match (sch bodyAll rest : List Char)
    (hsch : sch = schemeHttp ∨ sch = schemeHttps)
    (hne : bodyAll ≠ [])
    (hbody : ∀ c ∈ bodyAll, c ≠ '<') :
    locParseAt (sch ++ (bodyAll ++ (closeLoc ++ rest)))
      = some (sch ++ bodyAll, rest) := by
  rw [locParseAt, schemeSplit_match sch _ hsch]
  have hbodyb : ∀ c ∈ bodyAll, (c != '<') = true := by
    intro c hc
    simpa using hbody c hc
  have htw : (bodyAll ++ (closeLoc ++ rest)).takeWhile (fun c => c != '<')
      = bodyAll := by
    rw [List.takeWhile_append_of_pos hbodyb]
    simp [closeLoc, List.takeWhile_cons]
  have hdw : (bodyAll ++ (closeLoc ++ rest)).dropWhile (fun c => c != '<')
      = closeLoc ++ rest := by
    rw [List.dropWhile_append_of_pos hbodyb]
    simp [closeLoc, List.dropWhile_cons]
  simp only [htw, hdw]
  obtain ⟨d, ds, rfl⟩ := List.exists_cons_of_ne_nil hne
  simp only [List.isEmpty_cons, Bool.false_eq_true, if_false]
  rw [isPre_append_self closeLoc rest]
  simp only [if_true]
  rw [List.drop_left' (by simp [closeLoc])]

theorem locFindAll_closeLoc (rest : List Char) :
    locFindAll (closeLoc ++ rest) = locFindAll rest := by
  have hb : isPre openLoc (closeLoc ++ rest) = false := by
    simp [isPre, openLoc, closeLoc, List.cons_append]
  simp only [closeLoc, List.cons_append] at hb ⊢
  rw [locFindAll, hb]
  simp only [Bool.false_eq_true, if_false]
  exact locFindAll_skip ['/', 'l', 'o', 'c', '>'] rest (by decide)

theorem locFindAll_match (sch bodyAll rest : List Char)
    (hsch : sch = schemeHttp ∨ sch = schemeHttps)
    (hne : bodyAll ≠ [])
    (hbody : ∀ c ∈ bodyAll, c ≠ '<') :
    locFindAll (openLoc ++ (sch ++ (bodyAll ++ (closeLoc ++ rest))))
      = (sch ++ bodyAll) :: locFindAll rest := by
  have hschc : ∀ c ∈ sch, c ≠ '<' := by
    rcases hsch with h | h <;> subst h <;> decide
  simp only [openLoc, List.cons_append, List.nil_append]
  rw [locFindAll]
  have hpre : isPre openLoc
      ('<' :: 'l' :: 'o' :: 'c' :: '>' :: (sch ++ (bodyAll ++ (closeLoc ++ rest))))
      = true := by
    have := isPre_append_self openLoc (sch ++ (bodyAll ++ (closeLoc ++ rest)))
    simpa [openLoc, List.cons_append, List.nil_append] using this
  rw [hpre]
  simp only [if_true, List.drop_succ_cons, List.drop_zero]
  rw [locParseAt_match sch bodyAll rest hsch hne hbody]
  have h1 : locFindAll ('l' :: 'o' :: 'c' :: '>' :: (sch ++ (bodyAll ++ (closeLoc ++ rest))))
      = locFindAll (sch ++ (bodyAll ++ (closeLoc ++ rest))) := by
    have := locFindAll_skip ['l', 'o', 'c', '>'] (sch ++ (bodyAll ++ (closeLoc ++ rest)))
      (by decide)
    simpa [List.cons_append, List.nil_append] using this
  rw [h1, locFindAll_skip sch _ hschc, locFindAll_skip bodyAll _ hbody,
    locFindAll_closeLoc]

theorem bisonParseAt_match (sch bodyAll rest : List Char)
    (hsch : sch = schemeHttp ∨ sch = schemeHttps)
    (hne : bodyAll ≠ [])
    (hbody : ∀ c ∈ bodyAll, c ≠ '<' ∧ c ≠ ']') :
    bisonParseAt (sch ++ (bodyAll ++ (closeLoc ++ rest)))
      = some (sch ++ bodyAll, rest) := by
  have hcd : isPre cdOpen (sch ++ (bodyAll ++ (closeLoc ++ rest))) = false := by
    rcases hsch with h | h <;> subst h <;>
      simp [isPre, cdOpen, schemeHttp, schemeHttps, List.cons_append]
  rw [bisonParseAt]
  simp only [hcd, Bool.false_eq_true, if_false]
  rw [schemeSplit_match sch _ hsch]
  have hbodyb : ∀ c ∈ bodyAll, ((c != '<') && (c != ']')) = true := by
    intro c hc
    have := hbody c hc
    simp [this.1, this.2]
  have htw : (bodyAll ++ (closeLoc ++ rest)).takeWhile
      (fun c => c != '<' && c != ']') = bodyAll := by
    rw [List.takeWhile_append_of_pos hbodyb]
    simp [closeLoc, List.takeWhile_cons]
  have hdw : (bodyAll ++ (closeLoc ++ rest)).dropWhile
      (fun c => c != '<' && c != ']') = closeLoc ++ rest := by
    rw [List.dropWhile_append_of_pos hbodyb]
    simp [closeLoc, List.dropWhile_cons]
  simp only [htw, hdw]
  obtain ⟨d, ds, rfl⟩ := List.exists_cons_of_ne_nil hne
  simp only [List.isEmpty_cons, Bool.false_eq_true, if_false]
  have hcd2 : isPre cdClose (closeLoc ++ rest) = false := by
    simp [isPre, cdClose, closeLoc, List.cons_append]
  simp only [hcd2, Bool.false_eq_true, if_false]
  rw [isPre_append_self closeLoc rest]
  simp only [if_true]
  rw [List.drop_left' (by simp [closeLoc])]

theorem bisonFindAll_closeLoc (rest : List Char) :
    bisonFindAll (closeLoc ++ rest) = bisonFindAll rest := by
  have hb : isPre openLoc (closeLoc ++ rest) = false := by
    simp [isPre, openLoc, closeLoc, List.cons_append]
  simp only [closeLoc, List.cons_append] at hb ⊢
  rw [bisonFindAll, hb]
  simp only [Bool.false_eq_true, if_false]
  exact bisonFindAll_skip ['/', 'l', 'o', 'c', '>'] rest (by decide)

theorem bisonFindAll_match (sch bodyAll rest : List Char)
    (hsch : sch = schemeHttp ∨ sch = schemeHttps)
    (hne : bodyAll ≠ [])
    (hbody : ∀ c ∈ bodyAll, c ≠ '<' ∧ c ≠ ']') :
    bisonFindAll (openLoc ++ (sch ++ (bodyAll ++ (closeLoc ++ rest))))
      = (sch ++ bodyAll) :: bisonFindAll rest := by
  have hschc : ∀ c ∈ sch, c ≠ '<' := by
    rcases hsch with h | h <;> subst h <;> decide
  have hbodyc : ∀ c ∈ bodyAll, c ≠ '<' := fun c hc => (hbody c hc).1
  simp only [openLoc, List.cons_append, List.nil_append]
  rw [bisonFindAll]
  have hpre : isPre openLoc
      ('<' :: 'l' :: 'o' :: 'c' :: '>' :: (sch ++ (bodyAll ++ (closeLoc ++ rest))))
      = true := by
    have := isPre_append_self openLoc (sch ++ (bodyAll ++ (closeLoc ++ rest)))
    simpa [openLoc, List.cons_append, List.nil_append] using this
  rw [hpre]
  simp only [if_true, List.drop_succ_cons, List.drop_zero]
  rw [bisonParseAt_match sch bodyAll rest hsch hne hbody]
  have h1 : bisonFindAll ('l' :: 'o' :: 'c' :: '>' :: (sch ++ (bodyAll ++ (closeLoc ++ rest))))
      = bisonFindAll (sch ++ (bodyAll ++ (closeLoc ++ rest))) := by
    have := bisonFindAll_skip ['l', 'o', 'c', '>'] (sch ++ (bodyAll ++ (closeLoc ++ rest)))
      (by decide)
    simpa [List.cons_append, List.nil_append] using this
  rw [h1, bisonFindAll_skip sch _ hschc, bisonFindAll_skip bodyAll _ hbodyc,
    bisonFindAll_closeLoc]

theorem pyStrip_block (a : Char) (t body ws : List Char)
    (ha : pyWhitespace a = false)
    (hbody : ∀ c ∈ body, pyWhitespace c = false)
    (hne : body ≠ [])
    (hws : ∀ c ∈ ws, pyWhitespace c = true) :
    pyStrip ((a :: t) ++ (body ++ ws)) = (a :: t) ++ body := by
  simp only [pyStrip]
  have h1 : List.dropWhile pyWhitespace ((a :: t) ++ (body ++ ws))
      = (a :: t) ++ (body ++ ws) := by
    rw [List.cons_append, List.dropWhile_cons, ha]
    simp
  rw [h1]
  have h2 : ((a :: t) ++ (body ++ ws)).reverse
      = ws.reverse ++ (body.reverse ++ (a :: t).reverse) := by
    simp [List.reverse_append, List.append_assoc]
  rw [h2, List.dropWhile_append_of_pos (by
    intro c hc
    rw [List.mem_reverse] at hc
    exact hws c hc)]
  have hrne : body.reverse ≠ [] := by
    simpa [List.reverse_eq_nil_iff] using hne
  obtain ⟨d, ds, hd⟩ := List.exists_cons_of_ne_nil hrne
  have hdmem : d ∈ body := by
    rw [← List.mem_reverse, hd]
    exact List.mem_cons_self _ _
  rw [hd, List.cons_append, List.dropWhile_cons, hbody d hdmem]
  simp only [Bool.false_eq_true, if_false]
  rw [← List.cons_append, ← hd]
  simp [List.reverse_append, List.reverse_reverse]

/--
C3 counterexample: on the document `"&<loc>https://a.b </loc>"` — which
`ET.fromstring` rejects with `ParseError` (junk `&` before the root element,
also after the XML declaration is prepended), so `load_xml` takes the regex
fallback — the Walmart and LuxeDecor fallbacks set the `<loc>` child text to
the match `"https://a.b "` verbatim, with its trailing space, not to the
whitespace-stripped URL the claim describes.
-/
theorem loc_fallback_not_stripped :
    walmartFallbackLocs ("&<loc>https://a.b </loc>".data)
      = ["https://a.b ".data] ∧
    luxedecorFallbackLocs ("&<loc>https://a.b </loc>".data)
      = ["https://a.b ".data] ∧
    strippedLocMatches ("&<loc>https://a.b </loc>".data)
      = ["https://a.b".data] ∧
    walmartFallbackLocs ("&<loc>https://a.b </loc>".data)
      ≠ strippedLocMatches ("&<loc>https://a.b </loc>".data) := by
  decide

/--
C3 (amended): for every fetched sitemap document whose text fails XML
parsing, the fallback's `<loc>` children are the http(s) URLs matched by the
fallback regex in document order, kept verbatim (possibly retaining the
whitespace the match `[^<]+` absorbed before `</loc>`) in the Walmart and
LuxeDecor scrapers, and whitespace-stripped — under a pattern that also
tolerates CDATA wrappers and excludes `]` from the URL body — in the
BisonOffice scraper; `None` is returned only when the fallback itself
raises.  Stated here on any document of the shape
`pre ++ "<loc>" ++ scheme ++ body ++ ws ++ "</loc>" ++ rest`.
-/
theorem loc_fallback_amended (pre sch body ws rest : List Char)
    (hpre : ∀ c ∈ pre, c ≠ '<')
    (hsch : sch = schemeHttp ∨ sch = schemeHttps)
    (hne : body ≠ [])
    (hbody : ∀ c ∈ body, c ≠ '<' ∧ c ≠ ']' ∧ pyWhitespace c = false)
    (hws : ∀ c ∈ ws, c = ' ') :
    walmartFallbackLocs
        (pre ++ (openLoc ++ (sch ++ ((body ++ ws) ++ (closeLoc ++ rest)))))
      = (sch ++ (body ++ ws)) :: walmartFallbackLocs rest ∧
    luxedecorFallbackLocs
        (pre ++ (openLoc ++ (sch ++ ((body ++ ws) ++ (closeLoc ++ rest)))))
      = (sch ++ (body ++ ws)) :: luxedecorFallbackLocs rest ∧
    bisonFallbackLocs
        (pre ++ (openLoc ++ (sch ++ ((body ++ ws) ++ (closeLoc ++ rest)))))
      = (sch ++ body) :: bisonFallbackLocs rest := by
  have hbw_ne : body ++ ws ≠ [] := by
    intro h
    exact hne (List.append_eq_nil.mp h).1
  have hbw_lt : ∀ c ∈ body ++ ws, c ≠ '<' := by
    intro c hc
    rcases List.mem_append.mp hc with h | h
    · exact (hbody c h).1
    · rw [hws c h]; decide
  have hbw_both : ∀ c ∈ body ++ ws, c ≠ '<' ∧ c ≠ ']' := by
    intro c hc
    rcases List.mem_append.mp hc with h | h
    · exact ⟨(hbody c h).1, (hbody c h).2.1⟩
    · rw [hws c h]; exact ⟨by decide, by decide⟩
  have hwal : locFindAll
      (pre ++ (openLoc ++ (sch ++ ((body ++ ws) ++ (closeLoc ++ rest)))))
      = (sch ++ (body ++ ws)) :: locFindAll rest := by
    rw [locFindAll_skip pre _ hpre,
      locFindAll_match sch (body ++ ws) rest hsch hbw_ne hbw_lt]
  have hbis : bisonFindAll
      (pre ++ (openLoc ++ (sch ++ ((body ++ ws) ++ (closeLoc ++ rest)))))
      = (sch ++ (body ++ ws)) :: bisonFindAll rest := by
    rw [bisonFindAll_skip pre _ hpre,
      bisonFindAll_match sch (body ++ ws) rest hsch hbw_ne hbw_both]
  refine ⟨hwal, hwal, ?_⟩
  rw [bisonFallbackLocs, hbis, List.map_cons]
  have hstrip : pyStrip (sch ++ (body ++ ws)) = sch ++ body := by
    rcases hsch with h | h <;> subst h
    · exact pyStrip_block 'h' ['t', 't', 'p', ':', '/', '/'] body ws (by decide)
        (fun c hc => (hbody c hc).2.2) hne
        (fun c hc => by rw [hws c hc]; decide)
    · exact pyStrip_block 'h' ['t', 't', 'p', 's', ':', '/', '/'] body ws (by decide)
        (fun c hc => (hbody c hc).2.2) hne
        (fun c hc => by rw [hws c hc]; decide)
  rw [hstrip]
  rfl

/-- Concrete instantiation of `loc_fallback_amended` at
`"&" ++ "<loc>" ++ "https://" ++ "a" ++ " " ++ "</loc>"`. -/
theorem loc_fallback_amended_witness :
    (∀ c ∈ ['&'], c ≠ '<') ∧
    walmartFallbackLocs
        (['&'] ++ (openLoc ++ (schemeHttps ++ ((['a'] ++ [' ']) ++ (closeLoc ++ [])))))
      = (schemeHttps ++ (['a'] ++ [' '])) :: walmartFallbackLocs [] :=
  ⟨by decide,
   (loc_fallback_amended ['&'] schemeHttps ['a'] [' '] [] (by decide)
     (Or.inr rfl) (by decide) (by decide) (by decide)).1⟩

/-! ## BisonOffice / Bloomingdale's `load_xml` preprocessing
(src/bisonoffice/bisonoffice.py lines 206-245,
src/blooming-dales/blooming_dales.py lines 176-215) -/

/-- `raw[:2] == b'\x1f\x8b'` — the gzip magic test on the fetched bytes
(modelled as their numeric values, 31 and 139). -/
def gzipMagic : List Nat → Bool
  | a :: b :: _ => a == 31 && b == 139
  | _ => false

/-- Boolean substring test: does `pat` occur anywhere in the list? -/
def containsSeq (pat : List Char) : List Char → Bool
  | [] => pat.isEmpty
  | c :: cs => isPre pat (c :: cs) || containsSeq pat cs

/-- The tag looked for by `"<?xml" not in data[:100]`. -/
def xmlDeclTag : List Char := ['<', '?', 'x', 'm', 'l']

/-- The declaration prepended when missing:
`'<?xml version="1.0" encoding="UTF-8"?>\n'`. -/
def xmlDecl : List Char := ("<?xml version=\"1.0\" encoding=\"UTF-8\"?>\n").data

/-- `if "<?xml" not in data[:100]: data = '<?xml ...?>\n' + data`. -/
def ensureXmlDecl (l : List Char) : List Char :=
  if containsSeq xmlDeclTag (l.take 100) then l else xmlDecl ++ l

/-- Split at the first occurrence of `]]>`: returns the text before it and
the text after it (the non-greedy `(.*?)]]>` of the CDATA-stripping regex). -/
def splitAtCdataClose : List Char → Option (List Char × List Char)
  | [] => none
  | c :: cs =>
    if isPre cdClose (c :: cs) then some ([], cs.drop 2)
    else
      match splitAtCdataClose cs with
      | some (pre, post) => some (c :: pre, post)
      | none => none

theorem isPre_eq_append : ∀ (p l : List Char), isPre p l = true →
    l = p ++ l.drop p.length := by
  intro p
  induction p with
  | nil => intro l _; rfl
  | cons a ps ih =>
    intro l h
    cases l with
    | nil => exact absurd h (by simp [isPre])
    | cons c cs =>
      simp only [isPre, Bool.and_eq_true, beq_iff_eq] at h
      obtain ⟨rfl, h2⟩ := h
      have := ih cs h2
      simp only [List.length_cons, List.drop_succ_cons, List.cons_append]
      rw [← this]

theorem splitAtCdataClose_eq : ∀ (l pre post : List Char),
    splitAtCdataClose l = some (pre, post) → l = pre ++ cdClose ++ post := by
  intro l
  induction l with
  | nil => intro pre post h; exact absurd h (by simp [splitAtCdataClose])
  | cons c cs ih =>
    intro pre post h
    rw [splitAtCdataClose] at h
    by_cases hp : isPre cdClose (c :: cs) = true
    · rw [if_pos hp] at h
      obtain ⟨rfl, rfl⟩ : ([] : List Char) = pre ∧ cs.drop 2 = post := by
        have h1 := Option.some.inj h
        exact ⟨congrArg Prod.fst h1, congrArg Prod.snd h1⟩
      have := isPre_eq_append cdClose (c :: cs) hp
      simpa [cdClose] using this
    · rw [if_neg hp] at h
      cases hsp : splitAtCdataClose cs with
      | none => rw [hsp] at h; exact absurd h (by simp)
      | some pr =>
        obtain ⟨pre1, post1⟩ := pr
        rw [hsp] at h
        obtain ⟨rfl, rfl⟩ : c :: pre1 = pre ∧ post1 = post := by
          have h1 := Option.some.inj h
          exact ⟨congrArg Prod.fst h1, congrArg Prod.snd h1⟩
        have := ih pre1 post1 hsp
        simp [this]

/-- The CDATA-stripping pass
`re.sub(r'<!\[CDATA\[(.*?)]]>', lambda m: m.group(1), data, flags=re.DOTALL)`
(bisonoffice line 238, blooming_dales line 208): scan left to right; at an
`<![CDATA[` whose closer `]]>` exists later, replace the wrapper by its inner
text and continue after the closer (the replacement is not rescanned, as in
`re.sub`); otherwise keep the character and move on. -/
def stripCdata : List Char → List Char
  | [] => []
  | c :: cs =>
    if isPre cdOpen (c :: cs) then
      match h : splitAtCdataClose ((c :: cs).drop 9) with
      | some (inner, rest) => inner ++ stripCdata rest
      | none => c :: stripCdata cs
    else c :: stripCdata cs
termination_by l => l.length
decreasing_by
  · have hlen := congrArg List.length (splitAtCdataClose_eq _ _ _ h)
    simp only [List.length_drop, List.length_append, List.length_cons,
      cdClose, List.length_cons, List.length_nil] at hlen
    simp only [List.length_cons]
    omega
  · simp only [List.length_cons]; omega
  · simp only [List.length_cons]; omega

/-- The text handed to `ET.fromstring` by `load_xml`, as a function of the
fetched bytes: gzip-decompress exactly when the first two bytes are the gzip
magic (`None` when decompression fails), decode (`gunzip` and `decode`
stand for `gzip.decompress` and the utf-8/latin-1 `bytes.decode`), strip
CDATA wrappers, and prepend an XML declaration when none appears in the
first 100 characters. -/
def loadXmlText (gunzip : List Nat → Option (List Nat))
    (decode : List Nat → List Char) (raw : List Nat) : Option (List Char) :=
  if gzipMagic raw then
    match gunzip raw with
    | none => none
    | some b => some (ensureXmlDecl (stripCdata (decode b)))
  else some (ensureXmlDecl (stripCdata (decode raw)))

theorem isPre_cdClose_span : ∀ (inner rest : List Char),
    containsSeq cdClose inner = false → inner ≠ [] →
    isPre cdClose (inner ++ (cdClose ++ rest)) = false := by
  intro inner rest hfree hne
  match inner with
  | [] => exact absurd rfl hne
  | [x] => simp [isPre, cdClose, List.cons_append]
  | [x, y] => simp [isPre, cdClose, List.cons_append]
  | x :: y :: z :: tl =>
    by_contra hcon
    rw [Bool.not_eq_false] at hcon
    simp only [List.cons_append, isPre, cdClose, Bool.and_eq_true,
      beq_iff_eq] at hcon
    obtain ⟨rfl, rfl, rfl, _⟩ := hcon
    have : containsSeq cdClose (']' :: ']' :: '>' :: tl) = true := by
      rw [containsSeq]
      have : isPre cdClose (']' :: ']' :: '>' :: tl) = true := by
        simp [isPre, cdClose]
      simp [this]
    rw [this] at hfree
    exact absurd hfree (by simp)

theorem splitAtCdataClose_exact : ∀ (inner rest : List Char),
    containsSeq cdClose inner = false →
    splitAtCdataClose (inner ++ (cdClose ++ rest)) = some (inner, rest) := by
  intro inner
  induction inner with
  | nil =>
    intro rest _
    simp only [List.nil_append, cdClose, List.cons_append]
    rw [splitAtCdataClose]
    simp [isPre, cdClose]
  | cons a inner2 ih =>
    intro rest hfree
    have hfree2 : containsSeq cdClose inner2 = false := by
      rw [containsSeq] at hfree
      exact (Bool.or_eq_false_iff.mp hfree).2
    have hnp : isPre cdClose ((a :: inner2) ++ (cdClose ++ rest)) = false :=
      isPre_cdClose_span (a :: inner2) rest hfree (by simp)
    rw [List.cons_append, splitAtCdataClose]
    rw [List.cons_append] at hnp
    rw [hnp]
    simp only [Bool.false_eq_true, if_false]
    rw [ih rest hfree2]

theorem stripCdata_replace (inner rest : List Char)
    (hfree : containsSeq cdClose inner = false) :
    stripCdata (cdOpen ++ (inner ++ (cdClose ++ rest)))
      = inner ++ stripCdata rest := by
  have hx : splitAtCdataClose (inner ++ (cdClose ++ rest)) = some (inner, rest) :=
    splitAtCdataClose_exact inner rest hfree
  simp only [cdOpen, List.cons_append, List.nil_append]
  rw [stripCdata]
  rw [show isPre cdOpen ('<' :: '!' :: '[' :: 'C' :: 'D' :: 'A' :: 'T' :: 'A' ::
      '[' :: (inner ++ (cdClose ++ rest))) = true from by simp [isPre, cdOpen]]
  simp only [if_true, List.drop_succ_cons, List.drop_zero]
  rw [hx]

theorem stripCdata_skip : ∀ (l : List Char),
    containsSeq cdOpen l = false → stripCdata l = l := by
  intro l
  induction l with
  | nil => intro _; simp [stripCdata]
  | cons c cs ih =>
    intro hfree
    rw [containsSeq] at hfree
    obtain ⟨h1, h2⟩ := Bool.or_eq_false_iff.mp hfree
    rw [stripCdata, h1]
    simp only [Bool.false_eq_true, if_false]
    rw [ih h2]

/--
C4: in the BisonOffice and Bloomingdale's scrapers, `load_xml`
gzip-decompresses the fetched body exactly when its first two bytes are the
gzip magic `0x1f 0x8b` (returning `None` when decompression fails), and the
text handed to the XML parser has every `<![CDATA[...]]>` wrapper replaced
by its inner content and an XML declaration prepended when none appears in
the first 100 characters.
-/
theorem load_xml_preprocessing (gunzip : List Nat → Option (List Nat))
    (decode : List Nat → List Char) (raw : List Nat) :
    (gzipMagic raw = true ↔ ∃ t, raw = 31 :: 139 :: t) ∧
    (loadXmlText gunzip decode raw = none ↔
      gzipMagic raw = true ∧ gunzip raw = none) ∧
    (∀ b, gzipMagic raw = true → gunzip raw = some b →
      loadXmlText gunzip decode raw
        = some (ensureXmlDecl (stripCdata (decode b)))) ∧
    (gzipMagic raw = false →
      loadXmlText gunzip decode raw
        = some (ensureXmlDecl (stripCdata (decode raw)))) ∧
    (∀ inner rest, containsSeq cdClose inner = false →
      stripCdata (cdOpen ++ (inner ++ (cdClose ++ rest)))
        = inner ++ stripCdata rest) ∧
    (∀ l, containsSeq cdOpen l = false → stripCdata l = l) ∧
    (∀ l, containsSeq xmlDeclTag (l.take 100) = true → ensureXmlDecl l = l) ∧
    (∀ l, containsSeq xmlDeclTag (l.take 100) = false →
      ensureXmlDecl l = xmlDecl ++ l) := by
  refine ⟨?_, ?_, ?_, ?_, stripCdata_replace, stripCdata_skip, ?_, ?_⟩
  · constructor
    · intro h
      match raw, h with
      | a :: b :: t, h =>
        simp only [gzipMagic, Bool.and_eq_true, beq_iff_eq] at h
        exact ⟨t, by rw [h.1, h.2]⟩
    · rintro ⟨t, rfl⟩
      rfl
  · constructor
    · intro h
      by_cases hg : gzipMagic raw = true
      · rw [loadXmlText, if_pos hg] at h
        cases hz : gunzip raw with
        | none => exact ⟨hg, rfl⟩
        | some b => rw [hz] at h; exact absurd h (by simp)
      · rw [loadXmlText, if_neg hg] at h
        exact absurd h (by simp)
    · rintro ⟨hg, hz⟩
      rw [loadXmlText, if_pos hg, hz]
  · intro b hg hz
    rw [loadXmlText, if_pos hg, hz]
  · intro hg
    rw [loadXmlText, if_neg (by rw [hg]; simp)]
  · intro l h
    rw [ensureXmlDecl, if_pos h]
  · intro l h
    rw [ensureXmlDecl, if_neg (by rw [h]; simp)]

/-- Concrete instantiation of `load_xml_preprocessing`: bytes starting
`0x1f 0x8b` whose decompression fails yield `None`. -/
theorem load_xml_preprocessing_witness :
    (gzipMagic [31, 139, 0] = true ∧ (fun _ : List Nat => (none : Option (List Nat))) [31, 139, 0] = none) ∧
    loadXmlText (fun _ => none) (fun _ => []) [31, 139, 0] = none :=
  ⟨⟨by decide, rfl⟩,
   (load_xml_preprocessing (fun _ => none) (fun _ => []) [31, 139, 0]).2.1.mpr
     ⟨by decide, rfl⟩⟩

/-! ## CSV writing under `csv_lock`
(`WalmartScraper.write_row` lines 338-360, `BisonofficeScraper.write_row`
lines 675-697, and the header write in `run` before workers start) -/

/-- Atomic actions on the shared CSV and its lock. -/
inductive CsvAction where
  | acquire
  | release
  | writeRow (r : Nat)
  | writeHeader
deriving DecidableEq

/-- The trace of one worker thread writing the rows `rs`: each
`writer.writerow(row)` sits inside `with self.csv_lock` (walmart lines
359-360, bisonoffice lines 696-697), so a thread's trace is a sequence of
acquire / write / release blocks. -/
def wrBlocks : List Nat → List CsvAction
  | [] => []
  | r :: rs => .acquire :: .writeRow r :: .release :: wrBlocks rs

/-- Projection of a global schedule onto thread `t`. -/
def projT (t : Nat) (sched : List (Nat × CsvAction)) : List CsvAction :=
  sched.filterMap (fun p => if p.1 = t then some p.2 else none)

/-- One step of the lock automaton: acquiring succeeds only when the lock is
free (a thread blocked in `csv_lock.acquire` does not run), the owner alone
releases (the `with` statement pairs them), and writes leave ownership
unchanged.  `none` marks a schedule the lock semantics cannot produce. -/
def lockStep (owner : Option Nat) (ta : Nat × CsvAction) : Option (Option Nat) :=
  match ta.2, owner with
  | .acquire, none => some (some ta.1)
  | .acquire, some _ => none
  | .release, some t0 => if ta.1 = t0 then some none else none
  | .release, none => none
  | .writeRow _, _ => some owner
  | .writeHeader, _ => some owner

/-- Replay a schedule through the lock automaton, returning the final owner
when every step respects the lock semantics. -/
def replay (owner : Option Nat) : List (Nat × CsvAction) → Option (Option Nat)
  | [] => some owner
  | ta :: rest =>
    match lockStep owner ta with
    | none => none
    | some o2 => replay o2 rest

/-- The remaining trace of a thread inside its critical section. -/
def midShape (l : List CsvAction) : Prop :=
  (∃ r rs, l = .writeRow r :: .release :: wrBlocks rs) ∨
    (∃ rs, l = .release :: wrBlocks rs)

/-- The remaining trace of a thread outside its critical section. -/
def closedShape (l : List CsvAction) : Prop := ∃ rs, l = wrBlocks rs

/-- Invariant tying the lock owner to the threads' remaining traces. -/
def lockInv (owner : Option Nat) (rem : Nat → List CsvAction) : Prop :=
  ∀ t, (owner = some t → midShape (rem t)) ∧
    (owner ≠ some t → closedShape (rem t))

theorem projT_cons (t t0 : Nat) (a : CsvAction) (rest : List (Nat × CsvAction)) :
    projT t ((t0, a) :: rest)
      = if t0 = t then a :: projT t rest else projT t rest := by
  by_cases h : t0 = t
  · simp [projT, h]
  · simp [projT, h]

theorem wrBlocks_cons_inv (rs : List Nat) (a : CsvAction) (l : List CsvAction)
    (h : wrBlocks rs = a :: l) :
    a = .acquire ∧ ∃ r rs2, rs = r :: rs2 ∧
      l = .writeRow r :: .release :: wrBlocks rs2 := by
  cases rs with
  | nil => exact absurd h (by simp [wrBlocks])
  | cons r rs2 =>
    rw [wrBlocks] at h
    exact ⟨(List.cons.injEq _ _ _ _ ▸ h).1.symm,
      r, rs2, rfl, ((List.cons.injEq _ _ _ _ ▸ h).2).symm⟩

/-- Core safety argument: in every interleaving of the per-thread
`wrBlocks` traces that the lock semantics admits, each `writeRow` action is
performed by the thread currently owning `csv_lock`. -/
theorem replay_writes_locked :
    ∀ (sched : List (Nat × CsvAction)) (owner : Option Nat)
      (rem : Nat → List CsvAction),
      lockInv owner rem →
      (∀ t, projT t sched = rem t) →
      (replay owner sched).isSome →
      ∀ i (hi : i < sched.length) t r, sched.get ⟨i, hi⟩ = (t, .writeRow r) →
        replay owner (sched.take i) = some (some t) := by
  intro sched
  induction sched with
  | nil =>
    intro owner rem _ _ _ i hi
    exact absurd hi (by simp)
  | cons ta rest ih =>
    intro owner rem hinv hproj hvalid i hi t r hget
    obtain ⟨t0, a⟩ := ta
    have hremt0 : rem t0 = a :: projT t0 rest := by
      rw [← hproj t0, projT_cons, if_pos rfl]
    have hremo : ∀ t2, t2 ≠ t0 → rem t2 = projT t2 rest := by
      intro t2 hne
      rw [← hproj t2, projT_cons, if_neg (fun hh => hne hh.symm)]
    cases a with
    | acquire =>
      -- the lock must be free here, and t0 opens a fresh block
      have howner : owner = none := by
        cases howner : owner with
        | none => rfl
        | some x =>
          rw [howner] at hvalid
          rw [replay] at hvalid
          simp [lockStep] at hvalid
      subst howner
      have hclosed : closedShape (rem t0) := (hinv t0).2 (by simp)
      obtain ⟨rs, hrs⟩ := hclosed
      rw [hremt0] at hrs
      obtain ⟨_, r0, rs2, hrseq, hl⟩ := wrBlocks_cons_inv rs _ _ hrs.symm
      have hstep : lockStep none (t0, CsvAction.acquire) = some (some t0) := rfl
      have hinv2 : lockInv (some t0) (fun t2 => projT t2 rest) := by
        intro t2
        constructor
        · intro he
          have ht2 : t2 = t0 := (Option.some.inj he).symm
          subst ht2
          show midShape (projT t2 rest)
          left
          exact ⟨r0, rs2, hl⟩
        · intro hne
          have ht2 : t2 ≠ t0 := fun hh => hne (by rw [hh])
          show closedShape (projT t2 rest)
          rw [← hremo t2 ht2]
          exact (hinv t2).2 (by simp)
      have hvalid2 : (replay (some t0) rest).isSome := by
        rw [replay, hstep] at hvalid
        exact hvalid
      cases i with
      | zero =>
        have hget2 : (t0, CsvAction.acquire) = (t, CsvAction.writeRow r) := hget
        exact absurd (congrArg Prod.snd hget2) (by simp)
      | succ j =>
        have hj : j < rest.length := by simpa using hi
        have hget2 : rest.get ⟨j, hj⟩ = (t, CsvAction.writeRow r) := hget
        rw [List.take_succ_cons, replay, hstep]
        exact ih (some t0) _ hinv2 (fun t2 => rfl) hvalid2 j hj t r hget2
    | writeRow r0 =>
      -- only the owner\'s trace can have a pending write at its head
      have howner : owner = some t0 := by
        by_contra hne
        obtain ⟨rs, hrs⟩ := (hinv t0).2 hne
        rw [hremt0] at hrs
        obtain ⟨hacq, _⟩ := wrBlocks_cons_inv rs _ _ hrs.symm
        exact absurd hacq (by simp)
      subst howner
      have hmid := (hinv t0).1 rfl
      have hstep : lockStep (some t0) (t0, CsvAction.writeRow r0)
          = some (some t0) := rfl
      obtain ⟨r1, rs, hshape⟩ | ⟨rs, hshape⟩ := hmid
      · rw [hremt0] at hshape
        have htail : projT t0 rest = CsvAction.release :: wrBlocks rs :=
          (List.cons.injEq _ _ _ _ ▸ hshape).2
        have hinv2 : lockInv (some t0) (fun t2 => projT t2 rest) := by
          intro t2
          constructor
          · intro he
            have ht2 : t2 = t0 := (Option.some.inj he).symm
            subst ht2
            show midShape (projT t2 rest)
            right
            exact ⟨rs, htail⟩
          · intro hne
            have ht2 : t2 ≠ t0 := fun hh => hne (by rw [hh])
            show closedShape (projT t2 rest)
            rw [← hremo t2 ht2]
            exact (hinv t2).2 (by
              intro hh
              exact ht2 (Option.some.inj hh).symm)
        have hvalid2 : (replay (some t0) rest).isSome := by
          rw [replay, hstep] at hvalid
          exact hvalid
        cases i with
        | zero =>
          have hget2 : (t0, CsvAction.writeRow r0) = (t, CsvAction.writeRow r) :=
            hget
          have ht : t0 = t := congrArg Prod.fst hget2
          subst ht
          simp [replay]
        | succ j =>
          have hj : j < rest.length := by simpa using hi
          have hget2 : rest.get ⟨j, hj⟩ = (t, CsvAction.writeRow r) := hget
          rw [List.take_succ_cons, replay, hstep]
          exact ih (some t0) _ hinv2 (fun t2 => rfl) hvalid2 j hj t r hget2
      · -- shape `release :: _` contradicts the pending write at the head
        rw [hremt0] at hshape
        have := (List.cons.injEq _ _ _ _ ▸ hshape).1
        exact absurd this (by simp)
    | release =>
      have howner : owner = some t0 := by
        by_contra hne
        obtain ⟨rs, hrs⟩ := (hinv t0).2 hne
        rw [hremt0] at hrs
        obtain ⟨hacq, _⟩ := wrBlocks_cons_inv rs _ _ hrs.symm
        exact absurd hacq (by simp)
      subst howner
      have hmid := (hinv t0).1 rfl
      obtain ⟨r1, rs, hshape⟩ | ⟨rs, hshape⟩ := hmid
      · rw [hremt0] at hshape
        have := (List.cons.injEq _ _ _ _ ▸ hshape).1
        exact absurd this (by simp)
      · rw [hremt0] at hshape
        have htail : projT t0 rest = wrBlocks rs :=
          (List.cons.injEq _ _ _ _ ▸ hshape).2
        have hstep : lockStep (some t0) (t0, CsvAction.release) = some none := by
          simp [lockStep]
        have hinv2 : lockInv none (fun t2 => projT t2 rest) := by
          intro t2
          constructor
          · intro he
            exact absurd he (by simp)
          · intro _
            show closedShape (projT t2 rest)
            by_cases ht2 : t2 = t0
            · subst ht2
              exact ⟨rs, htail⟩
            · rw [← hremo t2 ht2]
              exact (hinv t2).2 (by
                intro hh
                exact ht2 (Option.some.inj hh).symm)
        have hvalid2 : (replay none rest).isSome := by
          rw [replay, hstep] at hvalid
          exact hvalid
        cases i with
        | zero =>
          have hget2 : (t0, CsvAction.release) = (t, CsvAction.writeRow r) := hget
          exact absurd (congrArg Prod.snd hget2) (by simp)
        | succ j =>
          have hj : j < rest.length := by simpa using hi
          have hget2 : rest.get ⟨j, hj⟩ = (t, CsvAction.writeRow r) := hget
          rw [List.take_succ_cons, replay, hstep]
          exact ih none _ hinv2 (fun t2 => rfl) hvalid2 j hj t r hget2
    | writeHeader =>
      -- worker traces contain no header write
      exfalso
      by_cases howner : owner = some t0
      · obtain hmid := (hinv t0).1 howner
        obtain ⟨r1, rs, hshape⟩ | ⟨rs, hshape⟩ := hmid <;>
          · rw [hremt0] at hshape
            have := (List.cons.injEq _ _ _ _ ▸ hshape).1
            exact absurd this (by simp)
      · obtain ⟨rs, hrs⟩ := (hinv t0).2 howner
        rw [hremt0] at hrs
        obtain ⟨hacq, _⟩ := wrBlocks_cons_inv rs _ _ hrs.symm
        exact absurd hacq (by simp)

theorem replay_append (l1 l2 : List (Nat × CsvAction)) (o : Option Nat) :
    replay o (l1 ++ l2)
      = match replay o l1 with
        | none => none
        | some o2 => replay o2 l2 := by
  induction l1 generalizing o with
  | nil => rfl
  | cons ta rest ih =>
    rw [List.cons_append, replay, replay]
    cases lockStep o ta with
    | none => rfl
    | some o2 => exact ih o2

theorem replay_stay (seg : List (Nat × CsvAction)) :
    ∀ (t : Nat) (o2 : Option Nat),
      (∀ e ∈ seg, e ≠ (t, CsvAction.release)) →
      replay (some t) seg = some o2 → o2 = some t := by
  induction seg with
  | nil =>
    intro t o2 _ h
    exact (Option.some.inj h).symm
  | cons e rest ih =>
    intro t o2 hnorel h
    obtain ⟨te, ae⟩ := e
    cases ae with
    | acquire =>
      rw [replay] at h
      simp [lockStep] at h
    | release =>
      by_cases hte : te = t
      · subst hte
        exact absurd rfl (hnorel (te, .release) (List.mem_cons_self _ _))
      · rw [replay] at h
        simp only [lockStep] at h
        rw [if_neg hte] at h
        simp at h
    | writeRow r =>
      rw [replay] at h
      exact ih t o2 (fun e he => hnorel e (List.mem_cons_of_mem _ he)) h
    | writeHeader =>
      rw [replay] at h
      exact ih t o2 (fun e he => hnorel e (List.mem_cons_of_mem _ he)) h

/-- The CSV file content: the sequence of `writerow` calls in a trace. -/
def csvFile (trace : List (Nat × CsvAction)) : List CsvAction :=
  trace.filterMap (fun p => match p.2 with
    | .writeRow r => some (.writeRow r)
    | .writeHeader => some .writeHeader
    | _ => none)

/-- `run` writes the header row (from the main thread `mainT`) before
submitting any work to the thread pool (walmart lines 461-483), so the full
run trace is the header write followed by the workers' schedule. -/
def runTrace (mainT : Nat) (sched : List (Nat × CsvAction)) :
    List (Nat × CsvAction) :=
  (mainT, .writeHeader) :: sched

/--
C8: every product row written to the shared output CSV by a worker thread is
written while that thread holds `csv_lock`; writes by two different threads
are separated by a release of the lock (so no two row writes interleave);
and the header row written before the workers start is the first row of the
file.
-/
theorem csv_lock_discipline (rows : Nat → List Nat)
    (sched : List (Nat × CsvAction))
    (hproj : ∀ t, projT t sched = wrBlocks (rows t))
    (hvalid : (replay none sched).isSome) :
    (∀ i (hi : i < sched.length) t r, sched.get ⟨i, hi⟩ = (t, .writeRow r) →
      replay none (sched.take i) = some (some t)) ∧
    (∀ i j (hi : i < sched.length) (hj : j < sched.length) t t2 r r2,
      i < j → sched.get ⟨i, hi⟩ = (t, .writeRow r) →
      sched.get ⟨j, hj⟩ = (t2, .writeRow r2) → t ≠ t2 →
      ∃ k, ∃ hk : k < sched.length, i < k ∧ k < j ∧
        sched.get ⟨k, hk⟩ = (t, .release)) ∧
    (∀ mainT, (csvFile (runTrace mainT sched)).head?
      = some CsvAction.writeHeader) := by
  have hlocked := replay_writes_locked sched none (fun t => wrBlocks (rows t))
    (fun t => ⟨fun he => absurd he (by simp), fun _ => ⟨rows t, rfl⟩⟩)
    hproj hvalid
  refine ⟨hlocked, ?_, fun _ => rfl⟩
  intro i j hi hj t t2 r r2 hij hgi hgj hne
  have howi : replay none (sched.take (i + 1)) = some (some t) := by
    have h1 : sched.take (i + 1) = sched.take i ++ [sched.get ⟨i, hi⟩] := by
      rw [List.take_succ, List.getElem?_eq_getElem hi]
      rfl
    rw [h1, replay_append, hlocked i hi t r hgi, hgi]
    rfl
  have howj : replay none (sched.take j) = some (some t2) :=
    hlocked j hj t2 r2 hgj
  set seg := (sched.drop (i + 1)).take (j - (i + 1)) with hseg
  have hsplit : sched.take j = sched.take (i + 1) ++ seg := by
    rw [hseg, ← List.take_add]
    congr 1
    omega
  have hrep : replay (some t) seg = some (some t2) := by
    rw [hsplit, replay_append, howi] at howj
    exact howj
  by_cases hrel : ∀ e ∈ seg, e ≠ (t, CsvAction.release)
  · exact absurd (replay_stay seg t (some t2) hrel hrep)
      (by intro hh; exact hne (Option.some.inj hh).symm)
  · push_neg at hrel
    obtain ⟨e, hemem, heq⟩ := hrel
    obtain ⟨⟨k2, hk2⟩, hkget⟩ := List.mem_iff_get.mp hemem
    have hk2len : k2 < j - (i + 1) := by
      have := hk2
      rw [hseg] at this
      simp only [List.length_take, List.length_drop] at this
      omega
    have hkidx : i + 1 + k2 < sched.length := by
      have := hk2
      rw [hseg] at this
      simp only [List.length_take, List.length_drop] at this
      omega
    refine ⟨i + 1 + k2, hkidx, by omega, by omega, ?_⟩
    have : seg.get ⟨k2, hk2⟩ = sched.get ⟨i + 1 + k2, hkidx⟩ := by
      simp only [List.get_eq_getElem, hseg, List.getElem_take, List.getElem_drop]
    rw [← this, hkget, heq]

/-- Concrete instantiation of `csv_lock_discipline`: one worker writing one
row inside the lock. -/
theorem csv_lock_discipline_witness :
    (∀ t, projT t [(0, CsvAction.acquire), (0, .writeRow 10), (0, .release)]
      = wrBlocks ((fun t2 => if t2 = 0 then [10] else []) t)) ∧
    (replay none [(0, CsvAction.acquire), (0, .writeRow 10), (0, .release)]).isSome ∧
    replay none ([(0, CsvAction.acquire), (0, .writeRow 10), (0, .release)].take 1)
      = some (some 0) := by
  have hproj : ∀ t, projT t [(0, CsvAction.acquire), (0, .writeRow 10), (0, .release)]
      = wrBlocks ((fun t2 => if t2 = 0 then [10] else []) t) := by
    intro t
    cases t with
    | zero => rfl
    | succ s => rfl
  refine ⟨hproj, by decide, ?_⟩
  exact (csv_lock_discipline (fun t2 => if t2 = 0 then [10] else [])
    [(0, CsvAction.acquire), (0, .writeRow 10), (0, .release)]
    hproj (by decide)).1 1 (by decide) 0 10 (by decide)

end Scraper
